import Mathlib

/-!
# Verification of the Cox deviance core (`src/glmnet/coxdev.py`)

This file embeds the `right_censored` preprocessor and evaluator from
`src/glmnet/coxdev.py` as Lean definitions and proves the specification
claims about them.

Modelling conventions:
* machine floats are modelled as exact arithmetic: event times, statuses and
  sample weights as `ℚ` (every float is a rational), the linear predictor and
  the likelihood computations as `ℝ` (`Real.exp` / `Real.log` for
  `np.exp` / `np.log`);
* numpy arrays and pandas columns are lists / index functions; cumulative sums
  (`np.cumsum`) are `cumsum`, and the reverse cumulative sum
  `np.cumsum(v[::-1])[::-1]` is `revCumsum`;
* the stable two-key sort `sort_values(by=[event_time, status],
  ascending=[True, False])` is `List.mergeSort` of the row indices under the
  composite key.
-/

namespace Glmnet

/-! ## Cumulative sums (`np.cumsum`) -/

/-- Cumulative sums of a list starting from the accumulator `acc`
(each output entry includes its own input entry, as `np.cumsum` does). -/
def cumsumFrom {α : Type} [AddCommMonoid α] : α → List α → List α
  | _, [] => []
  | acc, x :: xs => (acc + x) :: cumsumFrom (acc + x) xs

/-- `np.cumsum`: inclusive prefix sums. -/
def cumsum {α : Type} [AddCommMonoid α] (l : List α) : List α :=
  cumsumFrom 0 l

/-- `np.cumsum(v[::-1])[::-1]`: the reverse (suffix) cumulative sum. -/
def revCumsum {α : Type} [AddCommMonoid α] (l : List α) : List α :=
  (cumsum l.reverse).reverse

theorem length_cumsumFrom {α : Type} [AddCommMonoid α] (acc : α) (l : List α) :
    (cumsumFrom acc l).length = l.length := by
  induction l generalizing acc with
  | nil => rfl
  | cons x xs ih => simp [cumsumFrom, ih]

theorem length_cumsum {α : Type} [AddCommMonoid α] (l : List α) :
    (cumsum l).length = l.length := length_cumsumFrom 0 l

theorem length_revCumsum {α : Type} [AddCommMonoid α] (l : List α) :
    (revCumsum l).length = l.length := by
  simp [revCumsum, length_cumsum]

theorem getD_cumsumFrom {α : Type} [AddCommMonoid α] (acc : α) (l : List α)
    (p : ℕ) (hp : p < l.length) :
    (cumsumFrom acc l).getD p 0 = acc + (l.take (p + 1)).sum := by
  induction l generalizing acc p with
  | nil => simp at hp
  | cons x xs ih =>
    cases p with
    | zero => simp [cumsumFrom]
    | succ q =>
      simp only [cumsumFrom, List.getD_cons_succ, List.take_succ_cons,
        List.sum_cons]
      rw [ih (acc + x) q (by simpa using hp), add_assoc]

theorem getD_cumsum {α : Type} [AddCommMonoid α] (l : List α)
    (p : ℕ) (hp : p < l.length) :
    (cumsum l).getD p 0 = (l.take (p + 1)).sum := by
  rw [cumsum, getD_cumsumFrom 0 l p hp, zero_add]

theorem cumsumFrom_append {α : Type} [AddCommMonoid α] (acc : α)
    (l₁ l₂ : List α) :
    cumsumFrom acc (l₁ ++ l₂) = cumsumFrom acc l₁ ++ cumsumFrom (acc + l₁.sum) l₂ := by
  induction l₁ generalizing acc with
  | nil => simp [cumsumFrom]
  | cons x xs ih =>
    simp only [List.cons_append, cumsumFrom, List.sum_cons]
    rw [show (xs.append l₂) = xs ++ l₂ from rfl, ih (acc + x), add_assoc]

theorem revCumsum_cons {α : Type} [AddCommMonoid α] (x : α) (xs : List α) :
    revCumsum (x :: xs) = (x + xs.sum) :: revCumsum xs := by
  simp only [revCumsum, List.reverse_cons, cumsum, cumsumFrom_append,
    List.reverse_append, zero_add]
  simp [cumsumFrom, List.sum_reverse, add_comm]

theorem getD_revCumsum {α : Type} [AddCommMonoid α] (l : List α)
    (p : ℕ) (hp : p < l.length) :
    (revCumsum l).getD p 0 = (l.drop p).sum := by
  induction l generalizing p with
  | nil => simp at hp
  | cons x xs ih =>
    cases p with
    | zero => simp [revCumsum_cons]
    | succ q =>
      rw [revCumsum_cons, List.getD_cons_succ, List.drop_succ_cons]
      exact ih q (by simpa using hp)

/-! ## Sorting the rows (`__post_init__`, lines 34–37)

The dataset is `n` rows; row `i < n` has event time `t i`, status `s i` and
sample weight `w i` (all `ℚ`).  `sort_values(by=['event_time', 'status'],
ascending=[True, False])` sorts the row indices by time ascending, breaking
time ties by status descending; `self._order = np.asarray(self.data.index)`
is the resulting list of original row indices. -/

/-- The composite sort key of lines 34–35: time ascending, status descending. -/
def keyLE (t s : ℕ → ℚ) (a b : ℕ) : Bool :=
  decide (t a < t b ∨ (t a = t b ∧ s b ≤ s a))

/-- `self._order`: original row indices in sorted order (lines 34–36). -/
def order (n : ℕ) (t s : ℕ → ℚ) : List ℕ :=
  (List.range n).mergeSort (keyLE t s)

/-- `ord n t s p` is the original index of the row at sorted position `p`
(i.e. `self._order[p]`). -/
def ord (n : ℕ) (t s : ℕ → ℚ) (p : ℕ) : ℕ :=
  (order n t s).getD p 0

theorem keyLE_iff (t s : ℕ → ℚ) (a b : ℕ) :
    keyLE t s a b = true ↔ t a < t b ∨ (t a = t b ∧ s b ≤ s a) := by
  simp [keyLE]

theorem keyLE_trans (t s : ℕ → ℚ) (a b c : ℕ)
    (hab : keyLE t s a b) (hbc : keyLE t s b c) : keyLE t s a c := by
  rw [keyLE_iff] at *
  rcases hab with h₁ | ⟨h₁, h₁'⟩ <;> rcases hbc with h₂ | ⟨h₂, h₂'⟩
  · exact Or.inl (h₁.trans h₂)
  · exact Or.inl (h₂ ▸ h₁)
  · exact Or.inl (h₁ ▸ h₂)
  · exact Or.inr ⟨h₁.trans h₂, h₂'.trans h₁'⟩

theorem keyLE_total (t s : ℕ → ℚ) (a b : ℕ) :
    keyLE t s a b || keyLE t s b a := by
  rcases lt_trichotomy (t a) (t b) with h | h | h
  · simp [keyLE_iff, h]
  · rcases le_total (s b) (s a) with h' | h'
    · have : keyLE t s a b = true := (keyLE_iff t s a b).mpr (Or.inr ⟨h, h'⟩)
      simp [this]
    · have : keyLE t s b a = true := (keyLE_iff t s b a).mpr (Or.inr ⟨h.symm, h'⟩)
      simp [this]
  · simp [keyLE_iff, h]

theorem order_perm (n : ℕ) (t s : ℕ → ℚ) :
    (order n t s).Perm (List.range n) :=
  List.mergeSort_perm (List.range n) (keyLE t s)

theorem length_order (n : ℕ) (t s : ℕ → ℚ) : (order n t s).length = n := by
  simpa using (order_perm n t s).length_eq

theorem mem_order (n : ℕ) (t s : ℕ → ℚ) (i : ℕ) :
    i ∈ order n t s ↔ i < n := by
  rw [(order_perm n t s).mem_iff, List.mem_range]

theorem nodup_order (n : ℕ) (t s : ℕ → ℚ) : (order n t s).Nodup :=
  ((order_perm n t s).nodup_iff).mpr (List.nodup_range n)

theorem ord_lt (n : ℕ) (t s : ℕ → ℚ) (p : ℕ) (hp : p < n) :
    ord n t s p < n := by
  rw [← mem_order n t s]
  have hp' : p < (order n t s).length := by rwa [length_order]
  rw [ord, (order n t s).getD_eq_getElem 0 hp']
  exact (order n t s).getElem_mem hp'

theorem ord_injOn (n : ℕ) (t s : ℕ → ℚ) (p q : ℕ) (hp : p < n) (hq : q < n)
    (h : ord n t s p = ord n t s q) : p = q := by
  have hp' : p < (order n t s).length := by rwa [length_order]
  have hq' : q < (order n t s).length := by rwa [length_order]
  rw [ord, ord, (order n t s).getD_eq_getElem 0 hp',
    (order n t s).getD_eq_getElem 0 hq'] at h
  exact (List.Nodup.getElem_inj_iff (nodup_order n t s)).mp h

/-- The sorted invariant: positions respect the composite key. -/
theorem ord_sorted (n : ℕ) (t s : ℕ → ℚ) (p q : ℕ) (hpq : p < q) (hq : q < n) :
    keyLE t s (ord n t s p) (ord n t s q) = true := by
  have hs : (order n t s).Pairwise (fun a b => keyLE t s a b = true) := by
    have := @List.sorted_mergeSort ℕ (keyLE t s)
      (fun a b c hab hbc => keyLE_trans t s a b c hab hbc)
      (fun a b => keyLE_total t s a b) (List.range n)
    simpa [order] using this
  have hq' : q < (order n t s).length := by rwa [length_order]
  have hp' : p < (order n t s).length := lt_trans hpq hq'
  rw [ord, ord, (order n t s).getD_eq_getElem 0 hp',
    (order n t s).getD_eq_getElem 0 hq']
  exact (List.pairwise_iff_getElem.mp hs) p q hp' hq' hpq

/-- Time is monotone along sorted positions. -/
theorem t_ord_mono (n : ℕ) (t s : ℕ → ℚ) (p q : ℕ) (hpq : p ≤ q) (hq : q < n) :
    t (ord n t s p) ≤ t (ord n t s q) := by
  rcases eq_or_lt_of_le hpq with h | h
  · exact le_of_eq (by rw [h])
  · have := ord_sorted n t s p q h hq
    rw [keyLE_iff] at this
    rcases this with h' | ⟨h', _⟩
    · exact le_of_lt h'
    · exact le_of_eq h'

/-- The sorted list of rows, viewed through `ord`, is the `order` list itself. -/
theorem map_ord_range (n : ℕ) (t s : ℕ → ℚ) :
    (List.range n).map (ord n t s) = order n t s := by
  apply List.ext_getElem
  · simp [length_order]
  · intro p h₁ h₂
    simp only [List.getElem_map, List.getElem_range, ord]
    exact (order n t s).getD_eq_getElem 0 h₂

/-! ### Reindexing sums between sorted positions and original rows -/

theorem list_sum_range {M : Type} [AddCommMonoid M] (n : ℕ) (f : ℕ → M) :
    ((List.range n).map f).sum = ∑ i ∈ Finset.range n, f i := by
  induction n with
  | zero => simp
  | succ m ih => rw [List.range_succ, Finset.sum_range_succ]; simp [ih]

theorem list_sum_filter_eq_ite {M : Type} [AddCommMonoid M]
    (l : List ℕ) (p : ℕ → Bool) (f : ℕ → M) :
    ((l.filter p).map f).sum = (l.map (fun i => if p i then f i else 0)).sum := by
  induction l with
  | nil => rfl
  | cons x xs ih =>
    by_cases h : p x <;> simp [List.filter_cons, h, ih]

/-- A sum of `f` over the sorted positions whose row satisfies `P` equals the
sum of `f` over the original rows satisfying `P`. -/
theorem sum_positions_eq_sum_rows {M : Type} [AddCommMonoid M]
    (n : ℕ) (t s : ℕ → ℚ) (P : ℕ → Bool) (f : ℕ → M) :
    (((List.range n).filter (fun p => P (ord n t s p))).map
        (fun p => f (ord n t s p))).sum
      = ∑ i ∈ (Finset.range n).filter (fun i => P i = true), f i := by
  have h₁ : ((List.range n).filter (fun p => P (ord n t s p))).map
      (fun p => f (ord n t s p))
      = ((order n t s).filter P).map f := by
    rw [← map_ord_range n t s, List.filter_map, List.map_map]
    rfl
  have h₂ : ((order n t s).filter P).Perm ((List.range n).filter P) :=
    (order_perm n t s).filter P
  rw [h₁, (h₂.map f).sum_eq, list_sum_filter_eq_ite, list_sum_range,
    Finset.sum_filter]

/-- Unfiltered version: a sum over all sorted positions is a sum over rows. -/
theorem sum_positions_eq_sum_rows' {M : Type} [AddCommMonoid M]
    (n : ℕ) (t s : ℕ → ℚ) (f : ℕ → M) :
    (((List.range n).map (fun p => f (ord n t s p)))).sum
      = ∑ i ∈ Finset.range n, f i := by
  have h₁ : (List.range n).map (fun p => f (ord n t s p)) = (order n t s).map f := by
    rw [← map_ord_range n t s, List.map_map]
    rfl
  rw [h₁, ((order_perm n t s).map f).sum_eq, list_sum_range]

/-! ## Tie-aware preprocessing (`__post_init__`, lines 38–56)

Event rows are the rows with `status == 1` (line 38, exact equality).
`_fid` (lines 100–122) computes, via `np.unique` on the event rows' times,
the first sorted position of each distinct event time among event rows
(`first_idx`) and the member positions of every duplicated time (`ties`). -/

/-- `p` is one of `first_idx`: the row at sorted position `p` is an event row
(`status == 1`) and no earlier sorted position holds an event row with the
same event time.  (`np.unique(..., return_index=True)` on the event rows'
times, line 39.) -/
def isFirstB (n : ℕ) (t s : ℕ → ℚ) (p : ℕ) : Bool :=
  decide (s (ord n t s p) = 1) &&
    decide (∀ q < p, ¬ (s (ord n t s q) = 1 ∧ t (ord n t s q) = t (ord n t s p)))

/-- The list `first_idx` of line 39, in increasing position order. -/
def firsts (n : ℕ) (t s : ℕ → ℚ) : List ℕ :=
  (List.range n).filter (isFirstB n t s)

/-- The groupby sum of line 41: total sample weight of the (sorted) event rows
whose event time is `τ` (`groupby('event_time').sum()['sample_weight']`). -/
def groupWeight (n : ℕ) (t s w : ℕ → ℚ) (τ : ℚ) : ℚ :=
  (((List.range n).filter
      (fun q => decide (s (ord n t s q) = 1 ∧ t (ord n t s q) = τ))).map
    (fun q => w (ord n t s q))).sum

/-- `_derived_weight` (lines 42–44): the raw sample weight, overwritten at
each `first_idx` position by its tie group's total weight.  (The pandas
assignment `_derived_weight[first_idx] = _weight_sum` writes the groupby
sums positionally; both sides are in ascending event-time order.) -/
def derivedWeight (n : ℕ) (t s w : ℕ → ℚ) (p : ℕ) : ℚ :=
  if isFirstB n t s p then groupWeight n t s w (t (ord n t s p))
  else w (ord n t s p)

/-- `_derived_events` (lines 51–55): starts as the raw `status` column, the
tie-group members (positions of duplicated event times among event rows) are
zeroed, then every `first_idx` position is set to `1`.  A non-first event
position always lies in a duplicated group, so the net result is: `1` at
firsts, `0` at other event positions, the raw status elsewhere. -/
def derivedEvents (n : ℕ) (t s : ℕ → ℚ) (p : ℕ) : ℚ :=
  if isFirstB n t s p then 1
  else if s (ord n t s p) = 1 then 0
  else s (ord n t s p)

/-- `_risk_count` (line 56): the inclusive cumulative sum of
`_derived_events` over sorted positions. -/
def riskCountList (n : ℕ) (t s : ℕ → ℚ) : List ℚ :=
  cumsum ((List.range n).map (derivedEvents n t s))

/-- `_risk_count` at sorted position `p`. -/
def riskCount (n : ℕ) (t s : ℕ → ℚ) (p : ℕ) : ℚ :=
  (riskCountList n t s).getD p 0

/-- The value of `_risk_count[p]` used as a numpy integer index
(`rskdeninv[rskcount]`, lines 80/90).  In the runs the claims quantify over,
the cumulative sum is a natural number, which this recovers. -/
def riskCountN (n : ℕ) (t s : ℕ → ℚ) (p : ℕ) : ℕ :=
  ⌊riskCount n t s p⌋.toNat

/-- `self._loglik_sat` (lines 46–49): `-Σ v·log v` over the positive entries
of the groupby weight-sum series (one entry per distinct event time of the
event rows, i.e. per `first_idx` position). -/
noncomputable def loglikSat (n : ℕ) (t s w : ℕ → ℚ) : ℝ :=
  - ((((firsts n t s).map
        (fun p => groupWeight n t s w (t (ord n t s p)))).filter
      (fun v => decide (0 < v))).map
    (fun v : ℚ => (v : ℝ) * Real.log (v : ℝ))).sum

/-! ### Spec-side vocabulary (from the spec's §3 data model)

These definitions follow the spec's words, phrased over the *original* rows,
and are compared with the code-side definitions above in the theorems. -/

/-- The distinct event times: times carried by at least one `status = 1` row. -/
def eventTimes (n : ℕ) (t s : ℕ → ℚ) : Finset ℚ :=
  ((Finset.range n).filter (fun i => s i = 1)).image t

/-- The total sample weight of the raw event rows tied at time `τ`
(the spec's aggregated tie-group weight). -/
def Wsum (n : ℕ) (t s w : ℕ → ℚ) (τ : ℚ) : ℚ :=
  ∑ i ∈ (Finset.range n).filter (fun i => s i = 1 ∧ t i = τ), w i

/-- The sorted positions of the tie group at event time `τ`: positions whose
row is an event row with time `τ` (the spec's §3 "TieGroup" members). -/
def groupPositions (n : ℕ) (t s : ℕ → ℚ) (τ : ℚ) : Finset ℕ :=
  (Finset.range n).filter
    (fun p => s (ord n t s p) = 1 ∧ t (ord n t s p) = τ)

/-! ### Basic facts about firsts and tie groups -/

/-- The inverse of `order`: the sorted position of original row `i`
(used by `grad_cp[self._order] = grad`, lines 81–82). -/
def pos (n : ℕ) (t s : ℕ → ℚ) (i : ℕ) : ℕ :=
  (order n t s).indexOf i

theorem pos_lt (n : ℕ) (t s : ℕ → ℚ) (i : ℕ) (hi : i < n) :
    pos n t s i < n := by
  have := List.indexOf_lt_length.mpr ((mem_order n t s i).mpr hi)
  rwa [length_order] at this

theorem ord_pos (n : ℕ) (t s : ℕ → ℚ) (i : ℕ) (hi : i < n) :
    ord n t s (pos n t s i) = i := by
  have h : (order n t s).indexOf i < (order n t s).length :=
    List.indexOf_lt_length.mpr ((mem_order n t s i).mpr hi)
  rw [ord, pos, List.getD_eq_getElem _ 0 h]
  exact List.getElem_indexOf h

theorem pos_ord (n : ℕ) (t s : ℕ → ℚ) (p : ℕ) (hp : p < n) :
    pos n t s (ord n t s p) = p := by
  have h₁ : ord n t s p < n := ord_lt n t s p hp
  exact ord_injOn n t s _ p (pos_lt n t s _ h₁) hp (ord_pos n t s _ h₁)

theorem ord_surjOn (n : ℕ) (t s : ℕ → ℚ) (i : ℕ) (hi : i < n) :
    ∃ p, p < n ∧ ord n t s p = i :=
  ⟨pos n t s i, pos_lt n t s i hi, ord_pos n t s i hi⟩

theorem mem_firsts (n : ℕ) (t s : ℕ → ℚ) (p : ℕ) :
    p ∈ firsts n t s ↔ p < n ∧ isFirstB n t s p = true := by
  simp [firsts, List.mem_filter]

theorem firsts_pairwise_lt (n : ℕ) (t s : ℕ → ℚ) :
    (firsts n t s).Pairwise (· < ·) :=
  (List.pairwise_lt_range n).filter _

theorem firsts_nodup (n : ℕ) (t s : ℕ → ℚ) : (firsts n t s).Nodup :=
  (firsts_pairwise_lt n t s).imp Nat.ne_of_lt

theorem mem_groupPositions (n : ℕ) (t s : ℕ → ℚ) (τ : ℚ) (p : ℕ) :
    p ∈ groupPositions n t s τ ↔
      p < n ∧ s (ord n t s p) = 1 ∧ t (ord n t s p) = τ := by
  simp [groupPositions, and_assoc]

/-- `first_idx` positions are exactly the minimal members of their tie group. -/
theorem isFirstB_iff_min (n : ℕ) (t s : ℕ → ℚ) (p : ℕ) (hp : p < n) :
    isFirstB n t s p = true ↔
      p ∈ groupPositions n t s (t (ord n t s p)) ∧
        ∀ q ∈ groupPositions n t s (t (ord n t s p)), p ≤ q := by
  constructor
  · intro hf
    have hf' : s (ord n t s p) = 1 ∧
        ∀ q < p, ¬(s (ord n t s q) = 1 ∧ t (ord n t s q) = t (ord n t s p)) := by
      simpa [isFirstB] using hf
    refine ⟨(mem_groupPositions n t s _ p).mpr ⟨hp, hf'.1, rfl⟩, ?_⟩
    intro q hq
    by_contra hlt
    push_neg at hlt
    obtain ⟨hqn, hqs, hqt⟩ := (mem_groupPositions n t s _ q).mp hq
    exact hf'.2 q hlt ⟨hqs, hqt⟩
  · rintro ⟨hmem, hmin⟩
    obtain ⟨-, hs1, -⟩ := (mem_groupPositions n t s _ p).mp hmem
    have : ∀ q < p, ¬(s (ord n t s q) = 1 ∧ t (ord n t s q) = t (ord n t s p)) := by
      intro q hqp hcon
      have hqG : q ∈ groupPositions n t s (t (ord n t s p)) :=
        (mem_groupPositions n t s _ q).mpr ⟨lt_trans hqp hp, hcon.1, hcon.2⟩
      exact absurd (hmin q hqG) (by omega)
    rw [isFirstB, Bool.and_eq_true, decide_eq_true_eq, decide_eq_true_eq]
    exact ⟨hs1, this⟩

/-- Two firsts with the same event time coincide. -/
theorem first_unique (n : ℕ) (t s : ℕ → ℚ) (p q : ℕ) (hp : p < n) (hq : q < n)
    (hfp : isFirstB n t s p = true) (hfq : isFirstB n t s q = true)
    (hts : t (ord n t s p) = t (ord n t s q)) : p = q := by
  have h₁ := (isFirstB_iff_min n t s p hp).mp hfp
  have h₂ := (isFirstB_iff_min n t s q hq).mp hfq
  have hpq : p ≤ q := h₁.2 q (by rw [hts]; exact h₂.1)
  have hqp : q ≤ p := h₂.2 p (by rw [← hts]; exact h₁.1)
  omega

/-- Every distinct event time has a first position. -/
theorem exists_first (n : ℕ) (t s : ℕ → ℚ) (τ : ℚ)
    (hτ : τ ∈ eventTimes n t s) :
    ∃ p, p < n ∧ isFirstB n t s p = true ∧ t (ord n t s p) = τ := by
  rw [eventTimes] at hτ
  obtain ⟨i, hmem, hti⟩ := Finset.mem_image.mp hτ
  obtain ⟨hir, hsi⟩ := Finset.mem_filter.mp hmem
  have hin : i < n := Finset.mem_range.mp hir
  obtain ⟨p, hpn, hpe⟩ := ord_surjOn n t s i hin
  have hpg : p ∈ groupPositions n t s τ :=
    (mem_groupPositions n t s τ p).mpr
      ⟨hpn, by rw [hpe]; exact hsi, by rw [hpe]; exact hti⟩
  have hne : (groupPositions n t s τ).Nonempty := ⟨p, hpg⟩
  obtain ⟨hmn, hms, hmt⟩ :=
    (mem_groupPositions n t s τ _).mp ((groupPositions n t s τ).min'_mem hne)
  refine ⟨(groupPositions n t s τ).min' hne, hmn, ?_, hmt⟩
  rw [isFirstB_iff_min n t s _ hmn]
  refine ⟨by rw [hmt]; exact (groupPositions n t s τ).min'_mem hne, ?_⟩
  intro q hq
  rw [hmt] at hq
  exact (groupPositions n t s τ).min'_le q hq

/-- The time of a first position is a distinct event time. -/
theorem first_time_mem (n : ℕ) (t s : ℕ → ℚ) (p : ℕ) (hp : p < n)
    (hf : isFirstB n t s p = true) :
    t (ord n t s p) ∈ eventTimes n t s := by
  have hs1 : s (ord n t s p) = 1 := by
    have := (isFirstB_iff_min n t s p hp).mp hf
    exact ((mem_groupPositions n t s _ p).mp this.1).2.1
  exact Finset.mem_image.mpr ⟨ord n t s p,
    Finset.mem_filter.mpr ⟨Finset.mem_range.mpr (ord_lt n t s p hp), hs1⟩, rfl⟩

/-- Event times strictly increase along the `firsts` list. -/
theorem firsts_times_strictMono (n : ℕ) (t s : ℕ → ℚ) (p q : ℕ)
    (hp : p ∈ firsts n t s) (hq : q ∈ firsts n t s) (hpq : p < q) :
    t (ord n t s p) < t (ord n t s q) := by
  obtain ⟨hpn, hfp⟩ := (mem_firsts n t s p).mp hp
  obtain ⟨hqn, hfq⟩ := (mem_firsts n t s q).mp hq
  rcases lt_or_eq_of_le (t_ord_mono n t s p q (le_of_lt hpq) hqn) with h | h
  · exact h
  · exact absurd (first_unique n t s p q hpn hqn hfp hfq h) (by omega)

/-- The groupby weight sums of line 41 agree with the spec's per-group raw
sums. -/
theorem groupWeight_eq_Wsum (n : ℕ) (t s w : ℕ → ℚ) (τ : ℚ) :
    groupWeight n t s w τ = Wsum n t s w τ := by
  have h := sum_positions_eq_sum_rows n t s
    (fun i => decide (s i = 1 ∧ t i = τ)) w
  rw [groupWeight, Wsum]
  rw [h]
  exact Finset.sum_congr (by ext i; simp) (fun _ _ => rfl)

/-! ### Concrete datasets used by witnesses and counterexamples -/

/-- Two rows, both events at the same time: a single tie group of size 2. -/
def tieT : ℕ → ℚ := fun _ => 1

/-- Statuses for the two-row tied dataset: both events. -/
def tieS : ℕ → ℚ := fun _ => 1

/-- Unit weights. -/
def oneW : ℕ → ℚ := fun _ => 1

/-- The spec §8.6 scenario times `[2, 4, 3, 5, 6.5, 7, 7, 7, 7]`. -/
def exT : ℕ → ℚ := fun i => [2, 4, 3, 5, 13/2, 7, 7, 7, 7].getD i 0

/-- The spec §8.6 scenario statuses `[0, 1, 1, 0, 0, 1, 1, 1, 1]`. -/
def exS : ℕ → ℚ := fun i => [0, 1, 1, 0, 0, 1, 1, 1, 1].getD i 0

/-- The statuses of the module's `__main__` demo: `[0, 1, 1, 0, 0, 1, 7, 7, 7]`
(three rows with the non-boolean status `7`). -/
def exS7 : ℕ → ℚ := fun i => [0, 1, 1, 0, 0, 1, 7, 7, 7].getD i 0

/-- C2 counterexample. In the two-row tied dataset with unit weights the
derived weights at the two sorted positions are `2` (the group total, at the
first position) and `1` (the untouched raw weight), so their sum is `3`,
not the raw member sum `2`: lines 42–43 only overwrite the `first_idx`
entries and leave the other tie members' weights in place. -/
theorem claim_C2_counterexample :
    ¬ (∑ p ∈ groupPositions 2 tieT tieS 1, derivedWeight 2 tieT tieS oneW p
        = Wsum 2 tieT tieS oneW 1) := by
  with_unfolding_all decide

/-- C2 (amended): `DerivedWeight` carries the tie group's total raw weight at
the group's first (minimal) sorted position only; at every other member of a
tie group, and at every position not in a tie group, it equals the raw
`sample_weight` of that row. -/
theorem claim_C2 (n : ℕ) (t s w : ℕ → ℚ) :
    (∀ τ ∈ eventTimes n t s, ∀ p ∈ groupPositions n t s τ,
        ((∀ q ∈ groupPositions n t s τ, p ≤ q) →
          derivedWeight n t s w p = Wsum n t s w τ)
      ∧ ((∃ q ∈ groupPositions n t s τ, q < p) →
          derivedWeight n t s w p = w (ord n t s p)))
    ∧ (∀ p < n, s (ord n t s p) ≠ 1 → derivedWeight n t s w p = w (ord n t s p)) := by
  constructor
  · intro τ hτ p hpG
    obtain ⟨hpn, hps, hpt⟩ := (mem_groupPositions n t s τ p).mp hpG
    constructor
    · intro hmin
      have hf : isFirstB n t s p = true := by
        rw [isFirstB_iff_min n t s p hpn, hpt]
        exact ⟨hpG, hmin⟩
      rw [derivedWeight, if_pos hf, groupWeight_eq_Wsum, hpt]
    · rintro ⟨q, hqG, hqp⟩
      have hf : isFirstB n t s p = false := by
        by_contra hc
        have hf' : isFirstB n t s p = true := by
          revert hc
          cases isFirstB n t s p <;> simp
        have := ((isFirstB_iff_min n t s p hpn).mp hf').2 q (by rwa [hpt])
        omega
      rw [derivedWeight, if_neg (by simp [hf])]
  · intro p hpn hps
    have hf : isFirstB n t s p = false := by
      rw [isFirstB]
      simp [hps]
    rw [derivedWeight, if_neg (by simp [hf])]

/-- Witness for C2 at the two-row tied dataset: position `0` is the group's
first position and receives the total weight `2`; position `1` keeps weight
`1`. -/
theorem claim_C2_witness :
    (1 : ℚ) ∈ eventTimes 2 tieT tieS ∧
      0 ∈ groupPositions 2 tieT tieS 1 ∧
      derivedWeight 2 tieT tieS oneW 0 = Wsum 2 tieT tieS oneW 1 ∧
      derivedWeight 2 tieT tieS oneW 1 = oneW (ord 2 tieT tieS 1) := by
  refine ⟨by with_unfolding_all decide, by with_unfolding_all decide, ?_, ?_⟩
  · exact (((claim_C2 2 tieT tieS oneW).1 1 (by with_unfolding_all decide) 0
      (by with_unfolding_all decide)).1 (by with_unfolding_all decide))
  · exact (((claim_C2 2 tieT tieS oneW).1 1 (by with_unfolding_all decide) 1
      (by with_unfolding_all decide)).2 (by with_unfolding_all decide))

/-! ### The event times enumerated by the firsts -/

/-- The event times read off along the `first_idx` positions (the index of
the groupby series of line 41). -/
def firstTimes (n : ℕ) (t s : ℕ → ℚ) : List ℚ :=
  (firsts n t s).map (fun p => t (ord n t s p))

theorem firstTimes_pairwise (n : ℕ) (t s : ℕ → ℚ) :
    (firstTimes n t s).Pairwise (· < ·) := by
  rw [firstTimes, List.pairwise_map]
  exact (firsts_pairwise_lt n t s).imp_of_mem
    (fun ha hb h => firsts_times_strictMono n t s _ _ ha hb h)

theorem firstTimes_nodup (n : ℕ) (t s : ℕ → ℚ) :
    (firstTimes n t s).Nodup :=
  (firstTimes_pairwise n t s).imp ne_of_lt

theorem firstTimes_toFinset (n : ℕ) (t s : ℕ → ℚ) :
    (firstTimes n t s).toFinset = eventTimes n t s := by
  ext τ
  simp only [firstTimes, List.mem_toFinset, List.mem_map]
  constructor
  · rintro ⟨p, hp, rfl⟩
    obtain ⟨hpn, hf⟩ := (mem_firsts n t s p).mp hp
    exact first_time_mem n t s p hpn hf
  · intro hτ
    obtain ⟨p, hpn, hf, hpt⟩ := exists_first n t s τ hτ
    exact ⟨p, (mem_firsts n t s p).mpr ⟨hpn, hf⟩, hpt⟩

/-- Summing a function of the event time over the `firsts` equals summing it
over the distinct event times. -/
theorem sum_firstTimes {M : Type} [AddCommMonoid M] (n : ℕ) (t s : ℕ → ℚ)
    (g : ℚ → M) :
    ((firstTimes n t s).map g).sum = ∑ τ ∈ eventTimes n t s, g τ := by
  rw [← List.sum_toFinset g (firstTimes_nodup n t s), firstTimes_toFinset]

/-- Filtered version of `sum_firstTimes`. -/
theorem sum_firstTimes_filter {M : Type} [AddCommMonoid M] (n : ℕ)
    (t s : ℕ → ℚ) (P : ℚ → Prop) [DecidablePred P] (g : ℚ → M) :
    (((firstTimes n t s).filter (fun τ => decide (P τ))).map g).sum
      = ∑ τ ∈ (eventTimes n t s).filter P, g τ := by
  rw [← List.sum_toFinset g ((firstTimes_nodup n t s).filter _),
    List.toFinset_filter, firstTimes_toFinset]
  exact Finset.sum_congr (by ext x; simp) (fun _ _ => rfl)

/-- The spec's formula for the saturated log-likelihood (spec §3):
`-Σ w_g log w_g` over the tie groups with positive aggregated weight, the
aggregated weight of the group at time `τ` being the raw sum `Wsum`. -/
noncomputable def loglikSatSpec (n : ℕ) (t s w : ℕ → ℚ) : ℝ :=
  - ∑ τ ∈ (eventTimes n t s).filter (fun τ => 0 < Wsum n t s w τ),
      (Wsum n t s w τ : ℝ) * Real.log (Wsum n t s w τ)

/-- The code's `self._loglik_sat` agrees with the spec formula. -/
theorem loglikSat_eq_spec (n : ℕ) (t s w : ℕ → ℚ) :
    loglikSat n t s w = loglikSatSpec n t s w := by
  rw [loglikSat, loglikSatSpec, neg_inj]
  have h₁ : (firsts n t s).map (fun p => groupWeight n t s w (t (ord n t s p)))
      = (firstTimes n t s).map (Wsum n t s w) := by
    rw [firstTimes, List.map_map]
    exact List.map_congr_left (fun p _ => by
      rw [Function.comp_apply, groupWeight_eq_Wsum])
  rw [h₁, List.filter_map, List.map_map]
  exact sum_firstTimes_filter n t s (fun τ => 0 < Wsum n t s w τ)
    (fun τ => (Wsum n t s w τ : ℝ) * Real.log (Wsum n t s w τ))

/-! ### Risk count lemmas -/

theorem riskCount_eq (n : ℕ) (t s : ℕ → ℚ) (p : ℕ) (hp : p < n) :
    riskCount n t s p = ∑ r ∈ Finset.range (p + 1), derivedEvents n t s r := by
  rw [riskCount, riskCountList, getD_cumsum _ p (by simpa using hp),
    ← List.map_take, List.take_range, show min (p + 1) n = p + 1 by omega]
  exact list_sum_range _ _

theorem derivedEvents_nonneg (n : ℕ) (t s : ℕ → ℚ)
    (hnn : ∀ i < n, 0 ≤ s i) (r : ℕ) (hr : r < n) :
    0 ≤ derivedEvents n t s r := by
  rw [derivedEvents]
  by_cases h1 : isFirstB n t s r = true
  · rw [if_pos h1]
    norm_num
  · rw [if_neg h1]
    by_cases h2 : s (ord n t s r) = 1
    · rw [if_pos h2]
    · rw [if_neg h2]
      exact hnn _ (ord_lt n t s r hr)

/-- All-censored datasets and saturated log-likelihood.  `zeroS` is the
all-censored status vector. -/
def zeroS : ℕ → ℚ := fun _ => 0

/-- C6: the preprocessor's saturated log-likelihood equals
`-Σ w_g · log w_g` over the tie groups with positive aggregated raw weight,
and it vanishes for all-censored data. -/
theorem claim_C6 (n : ℕ) (t s w : ℕ → ℚ) :
    loglikSat n t s w = loglikSatSpec n t s w
    ∧ ((∀ i < n, s i = 0) → loglikSat n t s w = 0) := by
  refine ⟨loglikSat_eq_spec n t s w, fun h => ?_⟩
  rw [loglikSat_eq_spec]
  have he : eventTimes n t s = ∅ := by
    rw [eventTimes]
    have hf : (Finset.range n).filter (fun i => s i = 1) = ∅ := by
      apply Finset.filter_eq_empty_iff.mpr
      intro i hi
      rw [h i (Finset.mem_range.mp hi)]
      norm_num
    rw [hf, Finset.image_empty]
  rw [loglikSatSpec, he]
  simp

/-- Witness for C6 at an all-censored two-row dataset. -/
theorem claim_C6_witness :
    (∀ i < 2, zeroS i = 0) ∧ loglikSat 2 tieT zeroS oneW = 0 :=
  ⟨by with_unfolding_all decide,
    (claim_C6 2 tieT zeroS oneW).2 (by with_unfolding_all decide)⟩

/-- C9: `DerivedEvent` is `1` exactly at the first (minimal) sorted position
of each distinct event time among event rows, `0` at the other members of a
tie group, and keeps the raw status elsewhere; the risk count is monotone
non-decreasing for non-negative statuses.  In the spec §8.6 scenario the four
rows tied at time `7` occupy sorted positions `5..8`, carry a single derived
event at position `5`, and the derived weight there is `4`. -/
theorem claim_C9 :
    (∀ (n : ℕ) (t s : ℕ → ℚ),
      (∀ τ ∈ eventTimes n t s, ∀ p ∈ groupPositions n t s τ,
          ((∀ q ∈ groupPositions n t s τ, p ≤ q) → derivedEvents n t s p = 1)
        ∧ ((∃ q ∈ groupPositions n t s τ, q < p) → derivedEvents n t s p = 0))
      ∧ (∀ p < n, s (ord n t s p) ≠ 1 →
          derivedEvents n t s p = s (ord n t s p))
      ∧ ((∀ i < n, 0 ≤ s i) → ∀ p q, p ≤ q → q < n →
          riskCount n t s p ≤ riskCount n t s q))
    ∧ (groupPositions 9 exT exS 7 = {5, 6, 7, 8}
      ∧ derivedEvents 9 exT exS 5 = 1 ∧ derivedEvents 9 exT exS 6 = 0
      ∧ derivedEvents 9 exT exS 7 = 0 ∧ derivedEvents 9 exT exS 8 = 0
      ∧ derivedWeight 9 exT exS oneW 5 = 4) := by
  constructor
  · intro n t s
    refine ⟨?_, ?_, ?_⟩
    · intro τ hτ p hpG
      obtain ⟨hpn, hps, hpt⟩ := (mem_groupPositions n t s τ p).mp hpG
      constructor
      · intro hmin
        have hf : isFirstB n t s p = true := by
          rw [isFirstB_iff_min n t s p hpn, hpt]
          exact ⟨hpG, hmin⟩
        rw [derivedEvents, if_pos hf]
      · rintro ⟨q, hqG, hqp⟩
        have hf : ¬ isFirstB n t s p = true := by
          intro hc
          have := ((isFirstB_iff_min n t s p hpn).mp hc).2 q (by rwa [hpt])
          omega
        rw [derivedEvents, if_neg hf, if_pos hps]
    · intro p hpn hps
      have hf : ¬ isFirstB n t s p = true := by
        rw [isFirstB, Bool.and_eq_true, decide_eq_true_eq]
        exact fun hc => hps hc.1
      rw [derivedEvents, if_neg hf, if_neg hps]
    · intro hnn p q hpq hq
      rw [riskCount_eq n t s p (by omega), riskCount_eq n t s q hq]
      apply Finset.sum_le_sum_of_subset_of_nonneg
      · exact Finset.range_subset.mpr (by omega)
      · intro r hr _
        exact derivedEvents_nonneg n t s hnn r
          (by have := Finset.mem_range.mp hr; omega)
  · refine ⟨?_, ?_, ?_, ?_, ?_, ?_⟩ <;> with_unfolding_all decide

/-- Witness for C9 at the spec §8.6 scenario: position `5` is the minimal
member of the tie group at time `7` and carries the derived event; the risk
count is monotone there. -/
theorem claim_C9_witness :
    ((7 : ℚ) ∈ eventTimes 9 exT exS
      ∧ 5 ∈ groupPositions 9 exT exS 7
      ∧ (∀ q ∈ groupPositions 9 exT exS 7, 5 ≤ q)
      ∧ (∀ i < 9, (0:ℚ) ≤ exS i))
    ∧ derivedEvents 9 exT exS 5 = 1
    ∧ riskCount 9 exT exS 2 ≤ riskCount 9 exT exS 7 := by
  refine ⟨⟨by with_unfolding_all decide, by with_unfolding_all decide,
    by with_unfolding_all decide, by with_unfolding_all decide⟩, ?_, ?_⟩
  · exact (((claim_C9.1 9 exT exS).1 7 (by with_unfolding_all decide) 5
      (by with_unfolding_all decide)).1 (by with_unfolding_all decide))
  · exact ((claim_C9.1 9 exT exS).2.2 (by with_unfolding_all decide) 2 7
      (by omega) (by omega))

/-- The scenario times with a non-event row's time modified (row `0` is
censored), used to exhibit that non-event rows do not affect the saturated
log-likelihood. -/
def exT' : ℕ → ℚ := fun i => if i = 0 then 100 else exT i

/-- C10: only rows with `status == 1` are events.  A row with any other
status (such as `7`) is never a `first_idx`, belongs to no tie group, keeps
its raw weight and raw status in the derived columns (the raw status then
entering the `_risk_count` cumulative sum), and has no influence on the
saturated log-likelihood.  In the `__main__` demo dataset, sorted position
`5` holds a status-`7` row: its derived event is `7` and the risk count
jumps to `9` there, while `7` still has aggregated event weight `1` (from
its single status-`1` row). -/
theorem claim_C10 :
    (∀ (n : ℕ) (t s w : ℕ → ℚ), ∀ p < n, s (ord n t s p) ≠ 1 →
        isFirstB n t s p = false
      ∧ (∀ τ, p ∉ groupPositions n t s τ)
      ∧ derivedWeight n t s w p = w (ord n t s p)
      ∧ derivedEvents n t s p = s (ord n t s p)
      ∧ (0 < p → riskCount n t s p
          = riskCount n t s (p - 1) + s (ord n t s p)))
    ∧ (∀ (n : ℕ) (t s w t' w' : ℕ → ℚ),
        (∀ i < n, s i = 1 → t' i = t i ∧ w' i = w i) →
        loglikSat n t' s w' = loglikSat n t s w)
    ∧ (isFirstB 9 exT exS7 5 = false
      ∧ derivedEvents 9 exT exS7 5 = 7
      ∧ riskCount 9 exT exS7 5 = 9
      ∧ eventTimes 9 exT exS7 = {3, 4, 7}
      ∧ Wsum 9 exT exS7 oneW 7 = 1) := by
  refine ⟨?_, ?_, ?_⟩
  · intro n t s w p hpn hps
    have hf : isFirstB n t s p = false := by
      rw [isFirstB]
      simp only [Bool.and_eq_false_iff, decide_eq_false_iff_not]
      exact Or.inl hps
    have hf' : ¬ isFirstB n t s p = true := by simp [hf]
    refine ⟨hf, ?_, ?_, ?_, ?_⟩
    · intro τ hmem
      exact hps ((mem_groupPositions n t s τ p).mp hmem).2.1
    · rw [derivedWeight, if_neg hf']
    · rw [derivedEvents, if_neg hf', if_neg hps]
    · intro hp0
      rw [riskCount_eq n t s p hpn, riskCount_eq n t s (p - 1) (by omega),
        show p = (p - 1) + 1 by omega, Finset.sum_range_succ,
        show p - 1 + 1 - 1 = p - 1 by omega]
      congr 1
      rw [derivedEvents, if_neg (by rw [show (p-1)+1 = p by omega]; exact hf'),
        if_neg (by rw [show (p-1)+1 = p by omega]; exact hps),
        show (p-1)+1 = p by omega]
  · intro n t s w t' w' hagree
    rw [loglikSat_eq_spec, loglikSat_eq_spec, loglikSatSpec, loglikSatSpec]
    have hev : eventTimes n t' s = eventTimes n t s := by
      rw [eventTimes, eventTimes]
      apply Finset.image_congr
      intro i hi
      obtain ⟨hir, hsi⟩ := Finset.mem_filter.mp hi
      exact (hagree i (Finset.mem_range.mp hir) hsi).1
    have hW : ∀ τ, Wsum n t' s w' τ = Wsum n t s w τ := by
      intro τ
      rw [Wsum, Wsum]
      have hfe : (Finset.range n).filter (fun i => s i = 1 ∧ t' i = τ)
          = (Finset.range n).filter (fun i => s i = 1 ∧ t i = τ) := by
        apply Finset.filter_congr
        intro i hi
        have hin := Finset.mem_range.mp hi
        constructor
        · rintro ⟨h1, h2⟩
          exact ⟨h1, by rw [← (hagree i hin h1).1]; exact h2⟩
        · rintro ⟨h1, h2⟩
          exact ⟨h1, by rw [(hagree i hin h1).1]; exact h2⟩
      rw [hfe]
      apply Finset.sum_congr rfl
      intro i hi
      obtain ⟨hir, hsi, -⟩ := Finset.mem_filter.mp hi
      exact (hagree i (Finset.mem_range.mp hir) hsi).2
    rw [hev]
    apply congrArg
    rw [Finset.filter_congr (fun τ _ => by rw [hW τ])]
    apply Finset.sum_congr rfl
    intro τ _
    rw [hW τ]
  · refine ⟨?_, ?_, ?_, ?_, ?_⟩ <;> with_unfolding_all decide

/-- Witness for C10: the status-`7` row of the `__main__` demo at sorted
position `5` keeps status and weight, and changing a censored row's time
(row `0`) leaves the saturated log-likelihood unchanged. -/
theorem claim_C10_witness :
    (exS7 (ord 9 exT exS7 5) ≠ 1
      ∧ derivedWeight 9 exT exS7 oneW 5 = oneW (ord 9 exT exS7 5)
      ∧ riskCount 9 exT exS7 5
          = riskCount 9 exT exS7 4 + exS7 (ord 9 exT exS7 5))
    ∧ loglikSat 9 exT' exS7 oneW = loglikSat 9 exT exS7 oneW := by
  have h := (claim_C10.1 9 exT exS7 oneW 5 (by omega)
    (by with_unfolding_all decide))
  exact ⟨⟨by with_unfolding_all decide, h.2.2.1,
      by simpa using h.2.2.2.2 (by omega)⟩,
    claim_C10.2.1 9 exT exS7 oneW exT' oneW
      (by with_unfolding_all decide)⟩

/-! ## The evaluator (`__call__`, lines 58–98)

Per call the evaluator takes the linear predictor (a length-`n` float vector
in original row order), reorders it by `self._order`, centers it by its mean,
exponentiates, and forms the risk-set cumulative tables.  All float
computations are modelled over `ℝ`. -/

/-- `eta.mean()` of line 67: the mean of the reordered linear predictor. -/
noncomputable def etaMean (n : ℕ) (t s : ℕ → ℚ) (lp : ℕ → ℝ) : ℝ :=
  ((order n t s).map lp).sum / n

/-- Centered eta at sorted position `p` (lines 63, 67). -/
noncomputable def eta (n : ℕ) (t s : ℕ → ℚ) (lp : ℕ → ℝ) (p : ℕ) : ℝ :=
  lp (ord n t s p) - etaMean n t s lp

/-- `exp_eta * w` at sorted position `p` (lines 68, 72). -/
noncomputable def expEtaW (n : ℕ) (t s w : ℕ → ℚ) (lp : ℕ → ℝ) (p : ℕ) : ℝ :=
  Real.exp (eta n t s lp p) * (w (ord n t s p) : ℝ)

/-- `rskden` (line 72): the reverse cumulative sum of `exp_eta * w`. -/
noncomputable def rskden (n : ℕ) (t s w : ℕ → ℚ) (lp : ℕ → ℝ) : List ℝ :=
  revCumsum ((List.range n).map (expEtaW n t s w lp))

/-- `rskden[p]`. -/
noncomputable def rskdenAt (n : ℕ) (t s w : ℕ → ℚ) (lp : ℕ → ℝ) (p : ℕ) : ℝ :=
  (rskden n t s w lp).getD p 0

/-- `np.sum(log_terms)` (line 74): `_derived_weight * log(rskden)` summed
over the positions with positive `_derived_events`. -/
noncomputable def logTerms (n : ℕ) (t s w : ℕ → ℚ) (lp : ℕ → ℝ) : ℝ :=
  (((List.range n).filter (fun p => decide (0 < derivedEvents n t s p))).map
    (fun p => (derivedWeight n t s w p : ℝ) * Real.log (rskdenAt n t s w lp p))).sum

/-- `loglik` (line 75): `Σ (w*eta)[d > 0] - Σ log_terms`. -/
noncomputable def loglik (n : ℕ) (t s w : ℕ → ℚ) (lp : ℕ → ℝ) : ℝ :=
  (((List.range n).filter (fun p => decide (0 < s (ord n t s p)))).map
    (fun p => (w (ord n t s p) : ℝ) * eta n t s lp p)).sum
  - logTerms n t s w lp

/-- The returned deviance (line 96): `2 * (loglik_sat - loglik)`. -/
noncomputable def deviance (n : ℕ) (t s w : ℕ → ℚ) (lp : ℕ → ℝ) : ℝ :=
  2 * (loglikSat n t s w - loglik n t s w lp)

/-- `rskdeninv` (line 78): `hstack([0, cumsum((dw/rskden)[dd == 1])])`. -/
noncomputable def rskdeninv (n : ℕ) (t s w : ℕ → ℚ) (lp : ℕ → ℝ) : List ℝ :=
  0 :: cumsum (((List.range n).filter
      (fun p => decide (derivedEvents n t s p = 1))).map
    (fun p => (derivedWeight n t s w p : ℝ) / rskdenAt n t s w lp p))

/-- `rskdeninv2` (lines 87–88): `hstack([0, cumsum((dw/rskden**2)[dd == 1])])`. -/
noncomputable def rskdeninv2 (n : ℕ) (t s w : ℕ → ℚ) (lp : ℕ → ℝ) : List ℝ :=
  0 :: cumsum (((List.range n).filter
      (fun p => decide (derivedEvents n t s p = 1))).map
    (fun p => (derivedWeight n t s w p : ℝ) / rskdenAt n t s w lp p ^ 2))

/-- The gradient at sorted position `p` (line 80):
`w * (d - exp_eta * rskdeninv[rskcount])`. -/
noncomputable def gradS (n : ℕ) (t s w : ℕ → ℚ) (lp : ℕ → ℝ) (p : ℕ) : ℝ :=
  (w (ord n t s p) : ℝ) * ((s (ord n t s p) : ℝ)
    - Real.exp (eta n t s lp p)
      * (rskdeninv n t s w lp).getD (riskCountN n t s p) 0)

/-- The diagonal Hessian at sorted position `p` (lines 89–90):
`(w*exp_eta)^2 * rskdeninv2[rskcount] - (w*exp_eta) * rskdeninv[rskcount]`. -/
noncomputable def hessS (n : ℕ) (t s w : ℕ → ℚ) (lp : ℕ → ℝ) (p : ℕ) : ℝ :=
  ((w (ord n t s p) : ℝ) * Real.exp (eta n t s lp p)) ^ 2
      * (rskdeninv2 n t s w lp).getD (riskCountN n t s p) 0
    - (w (ord n t s p) : ℝ) * Real.exp (eta n t s lp p)
      * (rskdeninv n t s w lp).getD (riskCountN n t s p) 0

/-- The returned gradient at original row `i` (lines 81–82, 97):
`grad_cp[self._order] = grad`, scaled by `2` at the return. -/
noncomputable def gradCP (n : ℕ) (t s w : ℕ → ℚ) (lp : ℕ → ℝ) (i : ℕ) : ℝ :=
  2 * gradS n t s w lp (pos n t s i)

/-- The returned diagonal Hessian at original row `i` (lines 91–92, 98). -/
noncomputable def hessCP (n : ℕ) (t s w : ℕ → ℚ) (lp : ℕ → ℝ) (i : ℕ) : ℝ :=
  2 * hessS n t s w lp (pos n t s i)

/-! ## The Python-level call wrapper (dynamic failures of `__call__`)

`CoxDevianceResult` is the dataclass of lines 8–13; `grad`/`diag_hessian`
are `None`-able.  The wrapper records where `__call__` raises:
* line 63 `linear_predictor[self._order]` raises `IndexError` when the
  predictor is shorter than `n` (indices `0..n-1` are all used; a longer
  predictor is accepted, its extra entries ignored);
* lines 80/87/90 `rskdeninv[rskcount]` raises `IndexError` when some
  `_risk_count` entry is not a valid index into the length-`(#groups+1)`
  table (e.g. the non-boolean statuses of the `__main__` demo);
* line 97 computes `2*grad_cp` with `grad_cp = None` when `gradient=False`
  but `hessian=True` (`TypeError`), and with `grad_cp` unbound when both
  flags are `False` (`NameError`);
* line 98 reads `diag_hessian_cp`, unbound when `hessian=False`
  (`NameError`). -/

structure CoxDevianceResult where
  deviance : ℝ
  grad : Option (List ℝ)
  diag_hessian : Option (List ℝ)

inductive EvalError where
  | indexError : EvalError
  | typeError : EvalError
  | nameError : EvalError
  deriving DecidableEq

/-- Some `_risk_count` entry is not a valid (natural, in-bounds) index into
the `rskdeninv`/`rskdeninv2` tables of length `(firsts).length + 1`. -/
def badIndexB (n : ℕ) (t s : ℕ → ℚ) : Bool :=
  decide (∃ p < n, ¬ ((riskCount n t s p).den = 1 ∧ 0 ≤ riskCount n t s p ∧
    ⌊riskCount n t s p⌋.toNat < (firsts n t s).length + 1))

/-- The embedded `__call__` (lines 58–98), with the Python-level dynamic
failures made explicit.  `lpList` is the caller's `linear_predictor`. -/
noncomputable def call (n : ℕ) (t s w : ℕ → ℚ) (lpList : List ℝ)
    (gradient : Bool := true) (hessian : Bool := true) :
    Except EvalError CoxDevianceResult :=
  let lp : ℕ → ℝ := fun i => lpList.getD i 0
  if lpList.length < n then .error .indexError
  else if gradient && badIndexB n t s then .error .indexError
  else if hessian && badIndexB n t s then .error .indexError
  else if !gradient && !hessian then .error .nameError
  else if !gradient then .error .typeError
  else if !hessian then .error .nameError
  else .ok ⟨deviance n t s w lp,
    some ((List.range n).map (gradCP n t s w lp)),
    some ((List.range n).map (hessCP n t s w lp))⟩

/-! ## Construction (`__post_init__` entry, lines 24–41)

Event times are Python floats, possibly non-finite; statuses rationals.
Construction raises
* `ValueError` from the `pd.DataFrame` constructor (line 27) when
  `event_time` and `status` have different lengths;
* `KeyError` at line 41 whenever a `sample_weight` array is passed: the
  `'sample_weight'` column is only added when `sample_weight is None`
  (lines 29–30), so `data.loc[_events, ['event_time', 'sample_weight']]`
  finds no such column.
No finiteness check of `event_time` is performed anywhere.  (`NaN` event
times interact with `groupby` dropping `NaN` keys and are not modelled;
infinities sort and group like any other value.) -/

inductive PyFloat where
  | fin : ℚ → PyFloat
  | inf : PyFloat
  | ninf : PyFloat
  deriving DecidableEq

/-- Is the float finite? -/
def PyFloat.isFinite : PyFloat → Bool
  | .fin _ => true
  | _ => false

/-- The constructed preprocessor object: the validated input columns (the
derived tables are functions of these). -/
structure Preprocessor where
  n : ℕ
  event_time : List PyFloat
  status : List ℚ
  sample_weight : List ℚ
  deriving DecidableEq

inductive ConstructError where
  | valueError : ConstructError
  | keyError : ConstructError
  deriving DecidableEq

/-- The embedded construction (`right_censored(...)`, lines 24–41 up to the
first column access). -/
def construct (event_time : List PyFloat) (status : List ℚ)
    (sample_weight : Option (List ℚ) := none) :
    Except ConstructError Preprocessor :=
  if event_time.length ≠ status.length then .error .valueError
  else
    match sample_weight with
    | some _ => .error .keyError
    | none => .ok ⟨event_time.length, event_time, status,
        List.replicate event_time.length 1⟩

/-! ## Boolean-status datasets

The spec's data model declares `status` boolean (§3).  Under
`∀ i < n, s i = 0 ∨ s i = 1` the derived events are exactly the indicator of
the `first_idx` positions and `_risk_count` counts the firsts seen so far. -/

theorem derivedWeight_first (n : ℕ) (t s w : ℕ → ℚ) (p : ℕ)
    (hf : isFirstB n t s p = true) :
    derivedWeight n t s w p = Wsum n t s w (t (ord n t s p)) := by
  rw [derivedWeight, if_pos hf, groupWeight_eq_Wsum]

theorem derivedEvents_indicator (n : ℕ) (t s : ℕ → ℚ)
    (hB : ∀ i < n, s i = 0 ∨ s i = 1) (p : ℕ) (hp : p < n) :
    derivedEvents n t s p = if isFirstB n t s p = true then 1 else 0 := by
  by_cases hf : isFirstB n t s p = true
  · rw [derivedEvents, if_pos hf, if_pos hf]
  · rw [derivedEvents, if_neg hf, if_neg hf]
    by_cases h1 : s (ord n t s p) = 1
    · rw [if_pos h1]
    · rw [if_neg h1]
      rcases hB _ (ord_lt n t s p hp) with h0 | h0
      · exact h0
      · exact absurd h0 h1

theorem sum_map_one {α : Type} (l : List α) :
    (l.map (fun _ => (1 : ℕ))).sum = l.length := by
  induction l with
  | nil => rfl
  | cons x xs ih => simp [ih, Nat.add_comm]

theorem length_filter_eq_card (n : ℕ) (P : ℕ → Bool) :
    ((List.range n).filter P).length
      = ((Finset.range n).filter (fun q => P q = true)).card := by
  rw [← sum_map_one ((List.range n).filter P), list_sum_filter_eq_ite,
    list_sum_range]
  rw [Finset.card_filter]

theorem firsts_length_eq (n : ℕ) (t s : ℕ → ℚ) :
    (firsts n t s).length
      = ((Finset.range n).filter (fun q => isFirstB n t s q = true)).card :=
  length_filter_eq_card n (isFirstB n t s)

theorem riskCount_card (n : ℕ) (t s : ℕ → ℚ)
    (hB : ∀ i < n, s i = 0 ∨ s i = 1) (p : ℕ) (hp : p < n) :
    riskCount n t s p
      = (((Finset.range (p + 1)).filter
          (fun q => isFirstB n t s q = true)).card : ℚ) := by
  rw [riskCount_eq n t s p hp]
  rw [Finset.sum_congr rfl (fun q hq => derivedEvents_indicator n t s hB q
    (by have := Finset.mem_range.mp hq; omega))]
  rw [Finset.sum_boole]

theorem riskCountN_card (n : ℕ) (t s : ℕ → ℚ)
    (hB : ∀ i < n, s i = 0 ∨ s i = 1) (p : ℕ) (hp : p < n) :
    riskCountN n t s p
      = ((Finset.range (p + 1)).filter (fun q => isFirstB n t s q = true)).card := by
  rw [riskCountN, riskCount_card n t s hB p hp, Int.floor_natCast, Int.toNat_natCast]

theorem riskCountN_le (n : ℕ) (t s : ℕ → ℚ)
    (hB : ∀ i < n, s i = 0 ∨ s i = 1) (p : ℕ) (hp : p < n) :
    riskCountN n t s p ≤ (firsts n t s).length := by
  rw [riskCountN_card n t s hB p hp, firsts_length_eq]
  exact Finset.card_le_card
    (Finset.filter_subset_filter _ (Finset.range_subset.mpr (by omega)))

theorem badIndexB_false (n : ℕ) (t s : ℕ → ℚ)
    (hB : ∀ i < n, s i = 0 ∨ s i = 1) : badIndexB n t s = false := by
  rw [badIndexB, decide_eq_false_iff_not]
  intro hcon
  obtain ⟨p, hp, hnot⟩ := hcon
  apply hnot
  rw [riskCount_card n t s hB p hp]
  refine ⟨Rat.den_natCast _, by positivity, ?_⟩
  rw [Int.floor_natCast, Int.toNat_natCast]
  have := riskCountN_le n t s hB p hp
  rw [riskCountN_card n t s hB p hp] at this
  omega

/-! ## Claims C3, C4, C5: error handling -/

/-- Is an `Except` value a success? -/
def isOkE {ε α : Type} : Except ε α → Bool
  | .ok _ => true
  | .error _ => false

/-- Does the call succeed with both optional output fields present? -/
def okFields : Except EvalError CoxDevianceResult → Bool
  | .ok r => r.grad.isSome && r.diag_hessian.isSome
  | .error _ => false

/-- C3 (the code contradicts the flag contract): with `gradient=False` the
call reaches `2*grad_cp` with `grad_cp = None` and raises `TypeError`; with
`hessian=False` it reads the never-assigned `diag_hessian_cp` and raises
`NameError`; with both flags `False`, `grad_cp` itself is unbound
(`NameError`).  Only the default `gradient=hessian=True` call succeeds, and
then both optional fields are present. -/
theorem claim_C3 :
    call 1 tieT tieS oneW [0] false true = .error .typeError
    ∧ call 1 tieT tieS oneW [0] true false = .error .nameError
    ∧ call 1 tieT tieS oneW [0] false false = .error .nameError
    ∧ okFields (call 1 tieT tieS oneW [0] true true) = true
    ∧ (∀ (n : ℕ) (t s w : ℕ → ℚ) (lpList : List ℝ),
        call n t s w lpList = call n t s w lpList true true) := by
  have hbad : badIndexB 1 tieT tieS = false := by with_unfolding_all decide
  refine ⟨?_, ?_, ?_, ?_, fun _ _ _ _ _ => rfl⟩ <;>
    simp [call, hbad, okFields]

/-- C4 counterexample: a 1-row preprocessor accepts a length-2 linear
predictor (numpy fancy indexing only reads indices `0..n-1`), so
"fails iff length ≠ n" is false. -/
theorem claim_C4_counterexample :
    ([(0 : ℝ), 5].length ≠ 1)
    ∧ isOkE (call 1 tieT zeroS oneW [(0 : ℝ), 5] true true) = true := by
  have hbad : badIndexB 1 tieT zeroS = false := by with_unfolding_all decide
  exact ⟨by simp, by simp [call, hbad, isOkE]⟩

/-- C4 (amended): for a boolean-status dataset, the (default-flag) call
fails — with the `IndexError` of line 63 — iff the linear predictor is
*shorter* than `n`; a longer predictor is silently accepted.  The
preprocessor holds no mutable state, so any correct-length call still
succeeds afterwards. -/
theorem claim_C4 (n : ℕ) (t s w : ℕ → ℚ)
    (hB : ∀ i < n, s i = 0 ∨ s i = 1) (lpList : List ℝ) :
    (call n t s w lpList = .error .indexError ↔ lpList.length < n)
    ∧ (∀ lp' : List ℝ, lp'.length = n → isOkE (call n t s w lp') = true) := by
  have hbad : badIndexB n t s = false := badIndexB_false n t s hB
  constructor
  · constructor
    · intro hc
      by_contra hlen
      simp [call, hlen, hbad] at hc
    · intro hlen
      simp [call, hlen]
  · intro lp' hlen
    have hlen' : ¬ lp'.length < n := by omega
    simp [call, hlen', hbad, isOkE]

/-- Witness for C4: the 1-row event dataset with a length-2 predictor does
not raise, and the length-1 call succeeds. -/
theorem claim_C4_witness :
    (∀ i < 1, tieS i = 0 ∨ tieS i = 1)
    ∧ ¬ (call 1 tieT tieS oneW [(0 : ℝ), 5] = .error .indexError)
    ∧ isOkE (call 1 tieT tieS oneW [(0 : ℝ)]) = true := by
  have hB : ∀ i < 1, tieS i = 0 ∨ tieS i = 1 := by with_unfolding_all decide
  refine ⟨hB, ?_, ?_⟩
  · intro hc
    have := (claim_C4 1 tieT tieS oneW hB [(0 : ℝ), 5]).1.mp hc
    simp at this
  · exact (claim_C4 1 tieT tieS oneW hB [(0 : ℝ)]).2 [(0 : ℝ)] (by simp)

/-- C5 counterexample: an infinite event time is accepted — construction
performs no finiteness check (the spec §1 even notes it "does not validate
input data beyond what is needed to build the sorted representation"). -/
theorem claim_C5_counterexample :
    PyFloat.isFinite PyFloat.inf = false
    ∧ isOkE (construct [PyFloat.inf] [1] none) = true := by
  exact ⟨rfl, rfl⟩

/-- C5 (amended): construction fails iff the `event_time`/`status` lengths
differ (`ValueError` from the DataFrame constructor) or a `sample_weight`
array is passed (`KeyError` at line 41, since the column is only created
when the argument is `None`); non-finite (infinite) event times are
accepted.  On success the returned object holds the full input columns with
all-ones weights — no partial object is ever returned on failure. -/
theorem claim_C5 (event_time : List PyFloat) (status : List ℚ)
    (sample_weight : Option (List ℚ)) :
    (isOkE (construct event_time status sample_weight) = false ↔
      event_time.length ≠ status.length ∨ sample_weight.isSome)
    ∧ (∀ pre, construct event_time status sample_weight = .ok pre →
        pre.n = event_time.length ∧ pre.event_time = event_time
        ∧ pre.status = status
        ∧ pre.sample_weight = List.replicate event_time.length 1) := by
  constructor
  · by_cases hlen : event_time.length = status.length
    · cases sample_weight with
      | none => simp [construct, hlen, isOkE]
      | some u => simp [construct, hlen, isOkE]
    · cases sample_weight with
      | none => simp [construct, hlen, isOkE]
      | some u => simp [construct, hlen, isOkE]
  · intro pre hpre
    rw [construct.eq_def] at hpre
    split at hpre
    · exact Except.noConfusion hpre
    · cases sample_weight with
      | some u => exact Except.noConfusion hpre
      | none =>
        cases hpre
        exact ⟨rfl, rfl, rfl, rfl⟩

/-- Witness for C5 at a valid one-row input. -/
theorem claim_C5_witness :
    construct [PyFloat.fin 1] [1] none
        = .ok ⟨1, [PyFloat.fin 1], [1], [1]⟩
    ∧ (⟨1, [PyFloat.fin 1], [1], [1]⟩ : Preprocessor).n
        = ([PyFloat.fin 1] : List PyFloat).length := by
  refine ⟨by with_unfolding_all rfl, ?_⟩
  exact ((claim_C5 [PyFloat.fin 1] [1] none).2 ⟨1, [PyFloat.fin 1], [1], [1]⟩
    (by with_unfolding_all rfl)).1

/-! ## Claim C7: shift invariance -/

theorem list_sum_map_add_const (l : List ℕ) (f : ℕ → ℝ) (c : ℝ) :
    (l.map (fun i => f i + c)).sum = (l.map f).sum + l.length * c := by
  induction l with
  | nil => simp
  | cons x xs ih =>
    simp only [List.map_cons, List.sum_cons, List.length_cons, ih]
    push_cast
    ring

theorem etaMean_shift (n : ℕ) (t s : ℕ → ℚ) (hn : 0 < n) (lp : ℕ → ℝ) (c : ℝ) :
    etaMean n t s (fun i => lp i + c) = etaMean n t s lp + c := by
  rw [etaMean, etaMean, list_sum_map_add_const, length_order]
  have hn' : (n : ℝ) ≠ 0 := Nat.cast_ne_zero.mpr (by omega)
  field_simp
  ring

theorem eta_shift (n : ℕ) (t s : ℕ → ℚ) (hn : 0 < n) (lp : ℕ → ℝ) (c : ℝ) :
    eta n t s (fun i => lp i + c) = eta n t s lp := by
  funext p
  rw [eta, eta, etaMean_shift n t s hn lp c]
  ring

/-- C7: adding a constant to every entry of the linear predictor changes
neither the deviance nor the gradient — the mean-centering of line 67
absorbs the shift exactly. -/
theorem claim_C7 (n : ℕ) (t s w : ℕ → ℚ) (hn : 0 < n) (lp : ℕ → ℝ) (c : ℝ) :
    deviance n t s w (fun i => lp i + c) = deviance n t s w lp
    ∧ ∀ i, gradCP n t s w (fun i => lp i + c) i = gradCP n t s w lp i := by
  have he := eta_shift n t s hn lp c
  have hexp : expEtaW n t s w (fun i => lp i + c) = expEtaW n t s w lp := by
    funext p
    rw [expEtaW, expEtaW, he]
  constructor
  · simp only [deviance, loglik, logTerms, rskdenAt, rskden, he, hexp]
  · intro i
    simp only [gradCP, gradS, rskdeninv, rskdenAt, rskden, he, hexp]

/-- Witness for C7 at a one-row dataset with shift `5`. -/
theorem claim_C7_witness :
    0 < 1
    ∧ deviance 1 tieT tieS oneW (fun i => (fun _ => (0 : ℝ)) i + 5)
        = deviance 1 tieT tieS oneW (fun _ => (0 : ℝ))
    ∧ gradCP 1 tieT tieS oneW (fun i => (fun _ => (0 : ℝ)) i + 5) 0
        = gradCP 1 tieT tieS oneW (fun _ => (0 : ℝ)) 0 := by
  have h := claim_C7 1 tieT tieS oneW (by omega) (fun _ => (0 : ℝ)) 5
  exact ⟨by omega, h.1, h.2 0⟩

/-! ## Claim C1: the deviance formula -/

/-- The mean of the linear predictor over the rows (the spec's
"centering by the mean"). -/
noncomputable def lpMean (n : ℕ) (lp : ℕ → ℝ) : ℝ :=
  (∑ i ∈ Finset.range n, lp i) / n

theorem etaMean_eq_lpMean (n : ℕ) (t s : ℕ → ℚ) (lp : ℕ → ℝ) :
    etaMean n t s lp = lpMean n lp := by
  rw [etaMean, lpMean, ((order_perm n t s).map lp).sum_eq, list_sum_range]

/-- The first sorted position of the tie group at event time `τ` (the
spec's "first position of `g`"). -/
def firstPos (n : ℕ) (t s : ℕ → ℚ) (τ : ℚ) : ℕ :=
  ((firsts n t s).filter (fun p => decide (t (ord n t s p) = τ))).headD 0

theorem firstPos_eq (n : ℕ) (t s : ℕ → ℚ) (τ : ℚ) (q : ℕ) (hq : q < n)
    (hf : isFirstB n t s q = true) (hτ : t (ord n t s q) = τ) :
    firstPos n t s τ = q := by
  have hmem : q ∈ (firsts n t s).filter
      (fun p => decide (t (ord n t s p) = τ)) := by
    rw [List.mem_filter]
    exact ⟨(mem_firsts n t s q).mpr ⟨hq, hf⟩, by simpa using hτ⟩
  have hall : ∀ x ∈ (firsts n t s).filter
      (fun p => decide (t (ord n t s p) = τ)), x = q := by
    intro x hx
    rw [List.mem_filter] at hx
    obtain ⟨hx1, hx2⟩ := hx
    obtain ⟨hxn, hxf⟩ := (mem_firsts n t s x).mp hx1
    have hxt : t (ord n t s x) = τ := by simpa using hx2
    exact first_unique n t s x q hxn hq hxf hf (by rw [hxt, hτ])
  have hne : (firsts n t s).filter (fun p => decide (t (ord n t s p) = τ)) ≠ [] :=
    List.ne_nil_of_mem hmem
  rw [firstPos]
  have hh := List.head_mem hne
  rw [List.headD_eq_head?_getD, List.head?_eq_head hne]
  exact hall _ hh

/-- Positive derived events are exactly the firsts (boolean statuses). -/
theorem derivedEvents_pos_iff (n : ℕ) (t s : ℕ → ℚ)
    (hB : ∀ i < n, s i = 0 ∨ s i = 1) (p : ℕ) (hp : p < n) :
    (0 < derivedEvents n t s p) ↔ isFirstB n t s p = true := by
  rw [derivedEvents_indicator n t s hB p hp]
  by_cases hf : isFirstB n t s p = true
  · simp [hf]
  · simp [hf]

/-- The spec's partial log-likelihood formula:
`Σ(sample_weight · centered_eta over event rows)
 − Σ(DerivedWeight[g] · log(RiskDen[first position of g]))`
over the tie groups (whose derived event indicator `1` is positive), the
risk denominator being the reverse cumulative sum `rskdenAt`. -/
noncomputable def loglikSpecC1 (n : ℕ) (t s w : ℕ → ℚ) (lp : ℕ → ℝ) : ℝ :=
  (∑ i ∈ (Finset.range n).filter (fun i => s i = 1),
      (w i : ℝ) * (lp i - lpMean n lp))
  - ∑ τ ∈ eventTimes n t s,
      (Wsum n t s w τ : ℝ) * Real.log (rskdenAt n t s w lp (firstPos n t s τ))

/-- The code's `loglik` (line 75) equals the spec's formula for
boolean-status datasets. -/
theorem loglik_eq_spec (n : ℕ) (t s w : ℕ → ℚ) (lp : ℕ → ℝ)
    (hB : ∀ i < n, s i = 0 ∨ s i = 1) :
    loglik n t s w lp = loglikSpecC1 n t s w lp := by
  rw [loglik, loglikSpecC1, logTerms]
  congr 1
  · -- the event-row sum
    simp only [eta]
    rw [sum_positions_eq_sum_rows n t s (fun i => decide (0 < s i))
      (fun i => (w i : ℝ) * (lp i - etaMean n t s lp))]
    rw [etaMean_eq_lpMean]
    apply Finset.sum_congr
    · apply Finset.filter_congr
      intro i hi
      have hi' := Finset.mem_range.mp hi
      rcases hB i hi' with h0 | h1
      · simp [h0]
      · simp [h1]
    · intro i _
      rfl
  · -- the tie-group log term
    have hfe : (List.range n).filter (fun p => decide (0 < derivedEvents n t s p))
        = firsts n t s := by
      rw [firsts]
      apply List.filter_congr
      intro p hp
      have hp' := List.mem_range.mp hp
      by_cases hf : isFirstB n t s p = true
      · simp [hf, (derivedEvents_pos_iff n t s hB p hp').mpr hf]
      · have : ¬ (0 < derivedEvents n t s p) := fun hc =>
          hf ((derivedEvents_pos_iff n t s hB p hp').mp hc)
        simp [hf, this]
    rw [hfe]
    have hsum := sum_firstTimes n t s (fun τ => (Wsum n t s w τ : ℝ)
      * Real.log (rskdenAt n t s w lp (firstPos n t s τ)))
    rw [firstTimes, List.map_map] at hsum
    rw [← hsum]
    apply congrArg List.sum
    apply List.map_congr_left
    intro p hp
    obtain ⟨hpn, hpf⟩ := (mem_firsts n t s p).mp hp
    show (derivedWeight n t s w p : ℝ) * Real.log (rskdenAt n t s w lp p)
      = (Wsum n t s w (t (ord n t s p)) : ℝ)
        * Real.log (rskdenAt n t s w lp (firstPos n t s (t (ord n t s p))))
    rw [derivedWeight_first n t s w p hpf,
      firstPos_eq n t s (t (ord n t s p)) p hpn hpf rfl]

/-- C1: for boolean-status datasets the returned deviance is
`2 · (SaturatedLogLikelihood − loglik)` with `loglik` given by the spec's
event-row / tie-group formula. -/
theorem claim_C1 (n : ℕ) (t s w : ℕ → ℚ) (lp : ℕ → ℝ)
    (hB : ∀ i < n, s i = 0 ∨ s i = 1) :
    deviance n t s w lp
      = 2 * (loglikSat n t s w - loglikSpecC1 n t s w lp) := by
  rw [deviance, loglik_eq_spec n t s w lp hB]

/-- Witness for C1 at the spec §8.6 scenario with the all-ones linear
predictor (modulo centering, all-zero). -/
theorem claim_C1_witness :
    (∀ i < 9, exS i = 0 ∨ exS i = 1)
    ∧ deviance 9 exT exS oneW (fun _ => (1 : ℝ))
        = 2 * (loglikSat 9 exT exS oneW
            - loglikSpecC1 9 exT exS oneW (fun _ => (1 : ℝ))) := by
  have hB : ∀ i < 9, exS i = 0 ∨ exS i = 1 := by with_unfolding_all decide
  exact ⟨hB, claim_C1 9 exT exS oneW (fun _ => (1 : ℝ)) hB⟩

/-! ## Claim C8: permutation equivariance

The outputs are characterised row-wise through permutation-invariant
quantities: the risk denominator of the tie group at time `τ` is the total
`exp(centered lp)·w` mass of the rows at risk there (later time, or equal
time and not sorted before the events), and the `rskdeninv`/`rskdeninv2`
lookups at a row reduce to sums over the distinct event times `≤` the row's
own time. -/

/-- The risk denominator of the group at event time `τ`, expressed over the
original rows: all rows with later event time, plus the rows at time `τ` not
placed before the events by the status-descending tie-break. -/
noncomputable def riskDenSpec (n : ℕ) (t s w : ℕ → ℚ) (lp : ℕ → ℝ) (τ : ℚ) : ℝ :=
  ∑ i ∈ (Finset.range n).filter (fun i => τ < t i ∨ (t i = τ ∧ s i ≤ 1)),
    Real.exp (lp i - lpMean n lp) * (w i : ℝ)

/-- The `rskdeninv` lookup value for a row whose event time is `x`. -/
noncomputable def R1 (n : ℕ) (t s w : ℕ → ℚ) (lp : ℕ → ℝ) (x : ℚ) : ℝ :=
  ∑ τ ∈ (eventTimes n t s).filter (fun τ => τ ≤ x),
    (Wsum n t s w τ : ℝ) / riskDenSpec n t s w lp τ

/-- The `rskdeninv2` lookup value for a row whose event time is `x`. -/
noncomputable def R2 (n : ℕ) (t s w : ℕ → ℚ) (lp : ℕ → ℝ) (x : ℚ) : ℝ :=
  ∑ τ ∈ (eventTimes n t s).filter (fun τ => τ ≤ x),
    (Wsum n t s w τ : ℝ) / riskDenSpec n t s w lp τ ^ 2

/-- The suffix sums of `exp_eta * w` as sums over position intervals. -/
theorem rskdenAt_eq_Ico (n : ℕ) (t s w : ℕ → ℚ) (lp : ℕ → ℝ) (p : ℕ)
    (hp : p < n) :
    rskdenAt n t s w lp p = ∑ q ∈ Finset.Ico p n, expEtaW n t s w lp q := by
  rw [rskdenAt, rskden, getD_revCumsum _ p (by simpa using hp)]
  have h1 : (((List.range n).map (expEtaW n t s w lp)).take p).sum
        + (((List.range n).map (expEtaW n t s w lp)).drop p).sum
      = ((List.range n).map (expEtaW n t s w lp)).sum :=
    List.sum_take_add_sum_drop _ p
  have h2 : ((List.range n).map (expEtaW n t s w lp)).take p
      = (List.range p).map (expEtaW n t s w lp) := by
    rw [← List.map_take, List.take_range, show min p n = p by omega]
  rw [h2, list_sum_range, list_sum_range] at h1
  rw [Finset.sum_Ico_eq_sub _ (le_of_lt hp)]
  linarith

/-- Position `q` lies at or after the first position of the group at `τ`
iff its row is in the group's risk set. -/
theorem first_le_iff (n : ℕ) (t s : ℕ → ℚ) (f : ℕ) (hf : f < n)
    (hff : isFirstB n t s f = true) (q : ℕ) (hq : q < n) :
    f ≤ q ↔ (t (ord n t s f) < t (ord n t s q)
      ∨ (t (ord n t s q) = t (ord n t s f) ∧ s (ord n t s q) ≤ 1)) := by
  have hs1 : s (ord n t s f) = 1 :=
    (And.left (by simpa [isFirstB] using hff) : _)
  constructor
  · intro hfq
    rcases eq_or_lt_of_le hfq with h | h
    · exact Or.inr ⟨by rw [h], by rw [← h, hs1]⟩
    · have := ord_sorted n t s f q h hq
      rw [keyLE_iff] at this
      rcases this with h' | ⟨h', h''⟩
      · exact Or.inl h'
      · exact Or.inr ⟨h'.symm, by rw [← hs1]; exact h''⟩
  · intro hpred
    by_contra hcon
    push_neg at hcon
    have hkey := ord_sorted n t s q f hcon hf
    rw [keyLE_iff] at hkey
    rcases hkey with h' | ⟨h', h''⟩
    · rcases hpred with h'' | ⟨h'', _⟩
      · exact absurd (h'.trans h'') (lt_irrefl _)
      · rw [h''] at h'
        exact absurd h' (lt_irrefl _)
    · rcases hpred with hlt | ⟨-, hle⟩
      · rw [h'] at hlt
        exact absurd hlt (lt_irrefl _)
      · have hq1 : s (ord n t s q) = 1 := le_antisymm hle (by rw [hs1] at h''; exact h'')
        have hqG : q ∈ groupPositions n t s (t (ord n t s f)) :=
          (mem_groupPositions n t s _ q).mpr ⟨hq, hq1, h'⟩
        have := ((isFirstB_iff_min n t s f hf).mp hff).2 q hqG
        omega

/-- The risk denominator at a first position equals its row-level closed
form. -/
theorem rskdenAt_first (n : ℕ) (t s w : ℕ → ℚ) (lp : ℕ → ℝ) (p : ℕ)
    (hp : p < n) (hf : isFirstB n t s p = true) :
    rskdenAt n t s w lp p = riskDenSpec n t s w lp (t (ord n t s p)) := by
  rw [rskdenAt_eq_Ico n t s w lp p hp, riskDenSpec]
  refine Finset.sum_nbij' (ord n t s) (pos n t s) ?_ ?_ ?_ ?_ ?_
  · intro q hq
    obtain ⟨hpq, hqn⟩ := Finset.mem_Ico.mp hq
    refine Finset.mem_filter.mpr ⟨Finset.mem_range.mpr (ord_lt n t s q hqn), ?_⟩
    exact (first_le_iff n t s p hp hf q hqn).mp hpq
  · intro i hi
    obtain ⟨hir, hpred⟩ := Finset.mem_filter.mp hi
    have hin : i < n := Finset.mem_range.mp hir
    refine Finset.mem_Ico.mpr ⟨?_, pos_lt n t s i hin⟩
    apply (first_le_iff n t s p hp hf (pos n t s i) (pos_lt n t s i hin)).mpr
    rw [ord_pos n t s i hin]
    exact hpred
  · intro q hq
    exact pos_ord n t s q (Finset.mem_Ico.mp hq).2
  · intro i hi
    exact ord_pos n t s i (Finset.mem_range.mp (Finset.mem_filter.mp hi).1)
  · intro q _
    rw [expEtaW, eta, etaMean_eq_lpMean]

/-- For a prefix-closed predicate along a `Pairwise R` list, taking
`countP` elements is the same as filtering. -/
theorem take_countP_of_pairwise {α : Type} (R : α → α → Prop) (P : α → Bool) :
    ∀ (l : List α), l.Pairwise R →
      (∀ a b, R a b → P b = true → P a = true) →
      l.take (l.countP P) = l.filter P
  | [], _, _ => rfl
  | a :: xs, hpw, hdc => by
    obtain ⟨hhead, htail⟩ := List.pairwise_cons.mp hpw
    by_cases hPa : P a = true
    · rw [List.countP_cons_of_pos _ _ hPa, List.filter_cons_of_pos hPa,
        List.take_succ_cons]
      rw [take_countP_of_pairwise R P xs htail hdc]
    · have hall : ∀ b ∈ xs, ¬ P b = true :=
        fun b hb hPb => hPa (hdc a b (hhead b hb) hPb)
      rw [List.countP_cons_of_neg _ _ hPa, List.filter_cons_of_neg hPa]
      have h0 : xs.countP P = 0 := by
        rw [List.countP_eq_zero]
        exact hall
      rw [h0, List.take_zero, List.filter_eq_nil_iff.mpr hall]

theorem zeroCons_cumsum_getD (l : List ℝ) (k : ℕ) (hk : k ≤ l.length) :
    ((0 : ℝ) :: cumsum l).getD k 0 = (l.take k).sum := by
  cases k with
  | zero => simp
  | succ m =>
    rw [List.getD_cons_succ]
    exact getD_cumsum l m (by omega)

/-- Under boolean statuses, the `_derived_events == 1` positions are the
firsts. -/
theorem filter_dd_eq_firsts (n : ℕ) (t s : ℕ → ℚ)
    (hB : ∀ i < n, s i = 0 ∨ s i = 1) :
    (List.range n).filter (fun p => decide (derivedEvents n t s p = 1))
      = firsts n t s := by
  rw [firsts]
  apply List.filter_congr
  intro p hp
  have hp' := List.mem_range.mp hp
  rw [derivedEvents_indicator n t s hB p hp']
  by_cases hf : isFirstB n t s p = true
  · simp [hf]
  · simp [hf]

/-- Under boolean statuses `_risk_count[p]` counts the firsts at or before
`p`. -/
theorem riskCountN_filter_firsts (n : ℕ) (t s : ℕ → ℚ)
    (hB : ∀ i < n, s i = 0 ∨ s i = 1) (p : ℕ) (hp : p < n) :
    riskCountN n t s p
      = ((firsts n t s).filter (fun q => decide (q ≤ p))).length := by
  rw [riskCountN_card n t s hB p hp, firsts, List.filter_filter,
    length_filter_eq_card]
  congr 1
  ext q
  simp only [Finset.mem_filter, Finset.mem_range, Bool.and_eq_true,
    decide_eq_true_eq]
  constructor
  · rintro ⟨hq1, hq2⟩
    exact ⟨by omega, by omega, hq2⟩
  · rintro ⟨hq1, hq2, hq3⟩
    exact ⟨by omega, hq3⟩

/-- Position and time orders agree on the firsts (boolean statuses). -/
theorem firsts_filter_le (n : ℕ) (t s : ℕ → ℚ)
    (hB : ∀ i < n, s i = 0 ∨ s i = 1) (p : ℕ) (hp : p < n) :
    (firsts n t s).filter (fun q => decide (q ≤ p))
      = (firsts n t s).filter
          (fun q => decide (t (ord n t s q) ≤ t (ord n t s p))) := by
  apply List.filter_congr
  intro q hq
  obtain ⟨hqn, hqf⟩ := (mem_firsts n t s q).mp hq
  rw [decide_eq_decide]
  constructor
  · intro hqp
    exact t_ord_mono n t s q p hqp hp
  · intro hqt
    apply (first_le_iff n t s q hqn hqf p hp).mpr
    rcases lt_or_eq_of_le hqt with h | h
    · exact Or.inl h
    · refine Or.inr ⟨h.symm, ?_⟩
      rcases hB _ (ord_lt n t s p hp) with h0 | h0 <;> simp [h0]

/-- Core lookup lemma: indexing the `hstack([0, cumsum(...)])` table built
over the firsts at `_risk_count[p]` sums the per-group values over the
distinct event times `≤` the row's own time. -/
theorem cumsum_lookup_core (n : ℕ) (t s : ℕ → ℚ)
    (hB : ∀ i < n, s i = 0 ∨ s i = 1) (g : ℕ → ℝ) (h : ℚ → ℝ)
    (hgh : ∀ q ∈ firsts n t s, g q = h (t (ord n t s q)))
    (p : ℕ) (hp : p < n) :
    ((0 : ℝ) :: cumsum ((firsts n t s).map g)).getD (riskCountN n t s p) 0
      = ∑ τ ∈ (eventTimes n t s).filter (fun τ => τ ≤ t (ord n t s p)), h τ := by
  have hk : riskCountN n t s p ≤ ((firsts n t s).map g).length := by
    rw [List.length_map]
    exact riskCountN_le n t s hB p hp
  rw [zeroCons_cumsum_getD _ _ hk, ← List.map_take,
    riskCountN_filter_firsts n t s hB p hp,
    ← List.countP_eq_length_filter,
    take_countP_of_pairwise (· < ·) (fun q => decide (q ≤ p)) (firsts n t s)
      (firsts_pairwise_lt n t s)
      (fun a b hab hbp => by
        rw [decide_eq_true_eq] at *
        omega),
    firsts_filter_le n t s hB p hp]
  have hsum := sum_firstTimes_filter n t s
    (fun τ => τ ≤ t (ord n t s p)) h
  rw [firstTimes, List.filter_map, List.map_map] at hsum
  rw [← hsum]
  apply congrArg List.sum
  apply List.map_congr_left
  intro q hq
  exact hgh q (List.mem_of_mem_filter hq)

/-- The `rskdeninv[rskcount]` lookup (line 80) in closed form. -/
theorem rskdeninv_lookup (n : ℕ) (t s w : ℕ → ℚ) (lp : ℕ → ℝ)
    (hB : ∀ i < n, s i = 0 ∨ s i = 1) (p : ℕ) (hp : p < n) :
    (rskdeninv n t s w lp).getD (riskCountN n t s p) 0
      = R1 n t s w lp (t (ord n t s p)) := by
  rw [rskdeninv, filter_dd_eq_firsts n t s hB, R1]
  apply cumsum_lookup_core n t s hB _
    (fun τ => (Wsum n t s w τ : ℝ) / riskDenSpec n t s w lp τ) _ p hp
  intro q hq
  obtain ⟨hqn, hqf⟩ := (mem_firsts n t s q).mp hq
  rw [derivedWeight_first n t s w q hqf, rskdenAt_first n t s w lp q hqn hqf]

/-- The `rskdeninv2[rskcount]` lookup (line 90) in closed form. -/
theorem rskdeninv2_lookup (n : ℕ) (t s w : ℕ → ℚ) (lp : ℕ → ℝ)
    (hB : ∀ i < n, s i = 0 ∨ s i = 1) (p : ℕ) (hp : p < n) :
    (rskdeninv2 n t s w lp).getD (riskCountN n t s p) 0
      = R2 n t s w lp (t (ord n t s p)) := by
  rw [rskdeninv2, filter_dd_eq_firsts n t s hB, R2]
  apply cumsum_lookup_core n t s hB _
    (fun τ => (Wsum n t s w τ : ℝ) / riskDenSpec n t s w lp τ ^ 2) _ p hp
  intro q hq
  obtain ⟨hqn, hqf⟩ := (mem_firsts n t s q).mp hq
  rw [derivedWeight_first n t s w q hqf, rskdenAt_first n t s w lp q hqn hqf]

/-! ### Row-level closed forms of the outputs -/

/-- Closed form of the returned gradient at original row `i` (boolean
statuses): the output is indexed in the caller's original order and depends
only on row `i`'s own data and permutation-invariant aggregates. -/
theorem gradCP_closed (n : ℕ) (t s w : ℕ → ℚ) (lp : ℕ → ℝ)
    (hB : ∀ i < n, s i = 0 ∨ s i = 1) (i : ℕ) (hi : i < n) :
    gradCP n t s w lp i
      = 2 * ((w i : ℝ) * ((s i : ℝ)
          - Real.exp (lp i - lpMean n lp) * R1 n t s w lp (t i))) := by
  rw [gradCP, gradS, rskdeninv_lookup n t s w lp hB _ (pos_lt n t s i hi),
    eta, etaMean_eq_lpMean, ord_pos n t s i hi]

/-- Closed form of the returned diagonal Hessian at original row `i`. -/
theorem hessCP_closed (n : ℕ) (t s w : ℕ → ℚ) (lp : ℕ → ℝ)
    (hB : ∀ i < n, s i = 0 ∨ s i = 1) (i : ℕ) (hi : i < n) :
    hessCP n t s w lp i
      = 2 * (((w i : ℝ) * Real.exp (lp i - lpMean n lp)) ^ 2
            * R2 n t s w lp (t i)
          - (w i : ℝ) * Real.exp (lp i - lpMean n lp)
            * R1 n t s w lp (t i)) := by
  rw [hessCP, hessS, rskdeninv_lookup n t s w lp hB _ (pos_lt n t s i hi),
    rskdeninv2_lookup n t s w lp hB _ (pos_lt n t s i hi),
    eta, etaMean_eq_lpMean, ord_pos n t s i hi]

/-- Row-level closed form of the partial log-likelihood. -/
noncomputable def loglikClosed (n : ℕ) (t s w : ℕ → ℚ) (lp : ℕ → ℝ) : ℝ :=
  (∑ i ∈ (Finset.range n).filter (fun i => s i = 1),
      (w i : ℝ) * (lp i - lpMean n lp))
  - ∑ τ ∈ eventTimes n t s,
      (Wsum n t s w τ : ℝ) * Real.log (riskDenSpec n t s w lp τ)

theorem loglik_eq_closed (n : ℕ) (t s w : ℕ → ℚ) (lp : ℕ → ℝ)
    (hB : ∀ i < n, s i = 0 ∨ s i = 1) :
    loglik n t s w lp = loglikClosed n t s w lp := by
  rw [loglik_eq_spec n t s w lp hB, loglikSpecC1, loglikClosed]
  congr 1
  apply Finset.sum_congr rfl
  intro τ hτ
  obtain ⟨f, hfn, hff, hft⟩ := exists_first n t s τ hτ
  rw [firstPos_eq n t s τ f hfn hff hft,
    rskdenAt_first n t s w lp f hfn hff, hft]

/-! ### Permutation invariance of the aggregates -/

theorem sum_range_reindex {M : Type} [AddCommMonoid M] (n : ℕ)
    (σ σ' : ℕ → ℕ) (hσ : ∀ i < n, σ i < n) (hσ' : ∀ i < n, σ' i < n)
    (hlr : ∀ i < n, σ' (σ i) = i) (hrl : ∀ i < n, σ (σ' i) = i)
    (f : ℕ → M) :
    ∑ i ∈ Finset.range n, f (σ i) = ∑ i ∈ Finset.range n, f i := by
  refine Finset.sum_nbij' σ σ' ?_ ?_ ?_ ?_ ?_
  · intro a ha
    exact Finset.mem_range.mpr (hσ a (Finset.mem_range.mp ha))
  · intro b hb
    exact Finset.mem_range.mpr (hσ' b (Finset.mem_range.mp hb))
  · intro a ha
    exact hlr a (Finset.mem_range.mp ha)
  · intro b hb
    exact hrl b (Finset.mem_range.mp hb)
  · intro a _
    rfl

theorem sum_filter_reindex {M : Type} [AddCommMonoid M] (n : ℕ)
    (σ σ' : ℕ → ℕ) (hσ : ∀ i < n, σ i < n) (hσ' : ∀ i < n, σ' i < n)
    (hlr : ∀ i < n, σ' (σ i) = i) (hrl : ∀ i < n, σ (σ' i) = i)
    (P : ℕ → Prop) [DecidablePred P] (f : ℕ → M) :
    ∑ i ∈ (Finset.range n).filter (fun i => P (σ i)), f (σ i)
      = ∑ j ∈ (Finset.range n).filter P, f j := by
  refine Finset.sum_nbij' σ σ' ?_ ?_ ?_ ?_ ?_
  · intro a ha
    obtain ⟨h1, h2⟩ := Finset.mem_filter.mp ha
    exact Finset.mem_filter.mpr
      ⟨Finset.mem_range.mpr (hσ a (Finset.mem_range.mp h1)), h2⟩
  · intro b hb
    obtain ⟨h1, h2⟩ := Finset.mem_filter.mp hb
    have hbn := Finset.mem_range.mp h1
    refine Finset.mem_filter.mpr
      ⟨Finset.mem_range.mpr (hσ' b hbn), ?_⟩
    rw [hrl b hbn]
    exact h2
  · intro a ha
    exact hlr a (Finset.mem_range.mp (Finset.mem_filter.mp ha).1)
  · intro b hb
    exact hrl b (Finset.mem_range.mp (Finset.mem_filter.mp hb).1)
  · intro a _
    rfl

theorem lpMean_reindex (n : ℕ) (σ σ' : ℕ → ℕ)
    (hσ : ∀ i < n, σ i < n) (hσ' : ∀ i < n, σ' i < n)
    (hlr : ∀ i < n, σ' (σ i) = i) (hrl : ∀ i < n, σ (σ' i) = i)
    (lp : ℕ → ℝ) :
    lpMean n (fun i => lp (σ i)) = lpMean n lp := by
  rw [lpMean, lpMean, sum_range_reindex n σ σ' hσ hσ' hlr hrl lp]

theorem eventTimes_reindex (n : ℕ) (t s : ℕ → ℚ) (σ σ' : ℕ → ℕ)
    (hσ : ∀ i < n, σ i < n) (hσ' : ∀ i < n, σ' i < n)
    (_hlr : ∀ i < n, σ' (σ i) = i) (hrl : ∀ i < n, σ (σ' i) = i) :
    eventTimes n (fun i => t (σ i)) (fun i => s (σ i)) = eventTimes n t s := by
  ext τ
  simp only [eventTimes, Finset.mem_image, Finset.mem_filter, Finset.mem_range]
  constructor
  · rintro ⟨i, ⟨hin, hsi⟩, hti⟩
    exact ⟨σ i, ⟨hσ i hin, hsi⟩, hti⟩
  · rintro ⟨j, ⟨hjn, hsj⟩, htj⟩
    refine ⟨σ' j, ⟨hσ' j hjn, ?_⟩, ?_⟩
    · rw [hrl j hjn]
      exact hsj
    · rw [hrl j hjn]
      exact htj

theorem Wsum_reindex (n : ℕ) (t s w : ℕ → ℚ) (σ σ' : ℕ → ℕ)
    (hσ : ∀ i < n, σ i < n) (hσ' : ∀ i < n, σ' i < n)
    (hlr : ∀ i < n, σ' (σ i) = i) (hrl : ∀ i < n, σ (σ' i) = i) (τ : ℚ) :
    Wsum n (fun i => t (σ i)) (fun i => s (σ i)) (fun i => w (σ i)) τ
      = Wsum n t s w τ := by
  rw [Wsum, Wsum]
  exact sum_filter_reindex n σ σ' hσ hσ' hlr hrl
    (fun i => s i = 1 ∧ t i = τ) w

theorem riskDenSpec_reindex (n : ℕ) (t s w : ℕ → ℚ) (lp : ℕ → ℝ)
    (σ σ' : ℕ → ℕ) (hσ : ∀ i < n, σ i < n) (hσ' : ∀ i < n, σ' i < n)
    (hlr : ∀ i < n, σ' (σ i) = i) (hrl : ∀ i < n, σ (σ' i) = i) (τ : ℚ) :
    riskDenSpec n (fun i => t (σ i)) (fun i => s (σ i)) (fun i => w (σ i))
        (fun i => lp (σ i)) τ
      = riskDenSpec n t s w lp τ := by
  rw [riskDenSpec, riskDenSpec]
  rw [show (fun i => Real.exp ((fun i => lp (σ i)) i
        - lpMean n (fun i => lp (σ i))) * ((fun i => w (σ i)) i : ℝ))
      = fun i => Real.exp (lp (σ i) - lpMean n lp) * (w (σ i) : ℝ) from by
    funext i
    rw [lpMean_reindex n σ σ' hσ hσ' hlr hrl lp]]
  exact sum_filter_reindex n σ σ' hσ hσ' hlr hrl
    (fun i => τ < t i ∨ (t i = τ ∧ s i ≤ 1))
    (fun i => Real.exp (lp i - lpMean n lp) * (w i : ℝ))

theorem R1_reindex (n : ℕ) (t s w : ℕ → ℚ) (lp : ℕ → ℝ)
    (σ σ' : ℕ → ℕ) (hσ : ∀ i < n, σ i < n) (hσ' : ∀ i < n, σ' i < n)
    (hlr : ∀ i < n, σ' (σ i) = i) (hrl : ∀ i < n, σ (σ' i) = i) (x : ℚ) :
    R1 n (fun i => t (σ i)) (fun i => s (σ i)) (fun i => w (σ i))
        (fun i => lp (σ i)) x
      = R1 n t s w lp x := by
  rw [R1, R1, eventTimes_reindex n t s σ σ' hσ hσ' hlr hrl]
  apply Finset.sum_congr rfl
  intro τ _
  rw [Wsum_reindex n t s w σ σ' hσ hσ' hlr hrl τ,
    riskDenSpec_reindex n t s w lp σ σ' hσ hσ' hlr hrl τ]

theorem R2_reindex (n : ℕ) (t s w : ℕ → ℚ) (lp : ℕ → ℝ)
    (σ σ' : ℕ → ℕ) (hσ : ∀ i < n, σ i < n) (hσ' : ∀ i < n, σ' i < n)
    (hlr : ∀ i < n, σ' (σ i) = i) (hrl : ∀ i < n, σ (σ' i) = i) (x : ℚ) :
    R2 n (fun i => t (σ i)) (fun i => s (σ i)) (fun i => w (σ i))
        (fun i => lp (σ i)) x
      = R2 n t s w lp x := by
  rw [R2, R2, eventTimes_reindex n t s σ σ' hσ hσ' hlr hrl]
  apply Finset.sum_congr rfl
  intro τ _
  rw [Wsum_reindex n t s w σ σ' hσ hσ' hlr hrl τ,
    riskDenSpec_reindex n t s w lp σ σ' hσ hσ' hlr hrl τ]

theorem loglikSatSpec_reindex (n : ℕ) (t s w : ℕ → ℚ) (σ σ' : ℕ → ℕ)
    (hσ : ∀ i < n, σ i < n) (hσ' : ∀ i < n, σ' i < n)
    (hlr : ∀ i < n, σ' (σ i) = i) (hrl : ∀ i < n, σ (σ' i) = i) :
    loglikSatSpec n (fun i => t (σ i)) (fun i => s (σ i)) (fun i => w (σ i))
      = loglikSatSpec n t s w := by
  rw [loglikSatSpec, loglikSatSpec,
    eventTimes_reindex n t s σ σ' hσ hσ' hlr hrl]
  congr 1
  rw [Finset.filter_congr (fun τ _ => by
    rw [Wsum_reindex n t s w σ σ' hσ hσ' hlr hrl τ])]
  apply Finset.sum_congr rfl
  intro τ _
  rw [Wsum_reindex n t s w σ σ' hσ hσ' hlr hrl τ]

theorem loglikClosed_reindex (n : ℕ) (t s w : ℕ → ℚ) (lp : ℕ → ℝ)
    (σ σ' : ℕ → ℕ) (hσ : ∀ i < n, σ i < n) (hσ' : ∀ i < n, σ' i < n)
    (hlr : ∀ i < n, σ' (σ i) = i) (hrl : ∀ i < n, σ (σ' i) = i) :
    loglikClosed n (fun i => t (σ i)) (fun i => s (σ i)) (fun i => w (σ i))
        (fun i => lp (σ i))
      = loglikClosed n t s w lp := by
  rw [loglikClosed, loglikClosed]
  congr 1
  · rw [show (fun i => ((fun i => w (σ i)) i : ℝ) * ((fun i => lp (σ i)) i
          - lpMean n (fun i => lp (σ i))))
        = fun i => (w (σ i) : ℝ) * (lp (σ i) - lpMean n lp) from by
      funext i
      rw [lpMean_reindex n σ σ' hσ hσ' hlr hrl lp]]
    exact sum_filter_reindex n σ σ' hσ hσ' hlr hrl (fun i => s i = 1)
      (fun i => (w i : ℝ) * (lp i - lpMean n lp))
  · rw [eventTimes_reindex n t s σ σ' hσ hσ' hlr hrl]
    apply Finset.sum_congr rfl
    intro τ _
    rw [Wsum_reindex n t s w σ σ' hσ hσ' hlr hrl τ,
      riskDenSpec_reindex n t s w lp σ σ' hσ hσ' hlr hrl τ]

/-- C8: permuting the rows (times, statuses, weights) together with the
linear predictor by a bijection of `[0, n)` leaves the deviance unchanged
and permutes the returned gradient and diagonal Hessian by exactly that
bijection — the outputs are indexed in the caller's original order. -/
theorem claim_C8 (n : ℕ) (t s w : ℕ → ℚ) (lp : ℕ → ℝ) (σ σ' : ℕ → ℕ)
    (hB : ∀ i < n, s i = 0 ∨ s i = 1)
    (hσ : ∀ i < n, σ i < n) (hσ' : ∀ i < n, σ' i < n)
    (hlr : ∀ i < n, σ' (σ i) = i) (hrl : ∀ i < n, σ (σ' i) = i) :
    deviance n (fun i => t (σ i)) (fun i => s (σ i)) (fun i => w (σ i))
        (fun i => lp (σ i))
      = deviance n t s w lp
    ∧ (∀ i < n, gradCP n (fun i => t (σ i)) (fun i => s (σ i))
        (fun i => w (σ i)) (fun i => lp (σ i)) i = gradCP n t s w lp (σ i))
    ∧ (∀ i < n, hessCP n (fun i => t (σ i)) (fun i => s (σ i))
        (fun i => w (σ i)) (fun i => lp (σ i)) i = hessCP n t s w lp (σ i)) := by
  have hB' : ∀ i < n, (fun i => s (σ i)) i = 0 ∨ (fun i => s (σ i)) i = 1 :=
    fun i hi => hB (σ i) (hσ i hi)
  refine ⟨?_, ?_, ?_⟩
  · rw [deviance, deviance, loglikSat_eq_spec, loglikSat_eq_spec,
      loglikSatSpec_reindex n t s w σ σ' hσ hσ' hlr hrl,
      loglik_eq_closed _ _ _ _ _ hB', loglik_eq_closed n t s w lp hB,
      loglikClosed_reindex n t s w lp σ σ' hσ hσ' hlr hrl]
  · intro i hi
    rw [gradCP_closed _ _ _ _ _ hB' i hi,
      gradCP_closed n t s w lp hB (σ i) (hσ i hi),
      lpMean_reindex n σ σ' hσ hσ' hlr hrl lp,
      R1_reindex n t s w lp σ σ' hσ hσ' hlr hrl]
  · intro i hi
    rw [hessCP_closed _ _ _ _ _ hB' i hi,
      hessCP_closed n t s w lp hB (σ i) (hσ i hi),
      lpMean_reindex n σ σ' hσ hσ' hlr hrl lp,
      R1_reindex n t s w lp σ σ' hσ hσ' hlr hrl,
      R2_reindex n t s w lp σ σ' hσ hσ' hlr hrl]

/-- A three-row dataset (two tied events around a censored row) and a cyclic
permutation of its rows, for the C8 witness. -/
def t3 : ℕ → ℚ := fun i => [1, 2, 1].getD i 0

/-- Statuses of the three-row dataset. -/
def s3 : ℕ → ℚ := fun i => [1, 0, 1].getD i 0

/-- A linear predictor on the three-row dataset. -/
noncomputable def lp3 : ℕ → ℝ := fun i => (i : ℝ)

/-- The cycle `0 ↦ 1 ↦ 2 ↦ 0` on the three rows. -/
def perm3 : ℕ → ℕ := fun i => [1, 2, 0].getD i 0

/-- The inverse cycle. -/
def perm3' : ℕ → ℕ := fun i => [2, 0, 1].getD i 0

/-- Witness for C8 at the three-row dataset under the cyclic permutation. -/
theorem claim_C8_witness :
    ((∀ i < 3, s3 i = 0 ∨ s3 i = 1)
      ∧ (∀ i < 3, perm3 i < 3) ∧ (∀ i < 3, perm3' i < 3)
      ∧ (∀ i < 3, perm3' (perm3 i) = i) ∧ (∀ i < 3, perm3 (perm3' i) = i))
    ∧ deviance 3 (fun i => t3 (perm3 i)) (fun i => s3 (perm3 i))
        (fun i => oneW (perm3 i)) (fun i => lp3 (perm3 i))
      = deviance 3 t3 s3 oneW lp3
    ∧ gradCP 3 (fun i => t3 (perm3 i)) (fun i => s3 (perm3 i))
        (fun i => oneW (perm3 i)) (fun i => lp3 (perm3 i)) 0
      = gradCP 3 t3 s3 oneW lp3 (perm3 0) := by
  have h1 : ∀ i < 3, s3 i = 0 ∨ s3 i = 1 := by with_unfolding_all decide
  have h2 : ∀ i < 3, perm3 i < 3 := by decide
  have h3 : ∀ i < 3, perm3' i < 3 := by decide
  have h4 : ∀ i < 3, perm3' (perm3 i) = i := by decide
  have h5 : ∀ i < 3, perm3 (perm3' i) = i := by decide
  have h := claim_C8 3 t3 s3 oneW lp3 perm3 perm3' h1 h2 h3 h4 h5
  exact ⟨⟨h1, h2, h3, h4, h5⟩, h.1, h.2.1 0 (by omega)⟩

end Glmnet
